import Mathlib

/-!
Verification development for the buildutil repository: a shallow embedding of
the build-constraint matching core (goodOSArchFile, the legacy shouldBuild,
lookupTag, checkCompiler and MatchContext together with the platform knowledge
base), plus a Go slice/heap model for util.CopyContext, and theorems about the
spec's claims.

Modelling conventions:
* Go strings are embedded as `List Char` (named `Str`); Go byte/rune
  distinctions do not matter for the ASCII identifiers involved.
* Go map iteration order is unspecified.  Every loop of the matcher that
  ranges over a map therefore takes an explicit reordering function (collected
  in the `MapOrder` record); instantiating every field with `id` gives one
  admissible execution.
* `runtime.GOOS`/`runtime.GOARCH`/`runtime.Compiler` are fixed to
  linux/amd64/gc (the repository's CI host of record), and the active release
  tag set of the pinned go1.19 toolchain is go1.1 .. go1.19.
* File reading (`openReader`/`readImportsFast`), GOROOT/GOPATH fixing and the
  binary-only-package flag are out of scope per the spec's §1: the source text
  is passed directly and the GOROOT/GOPATH fields are not modelled (no part of
  matching consults them).
-/

deriving instance DecidableEq for Except

set_option maxRecDepth 40000

namespace Buildutil

/-- Go strings, embedded as lists of characters. -/
abbrev Str := List Char

/-- Convert a Lean string literal to the embedding's string type. -/
def str (s : String) : Str := s.toList

/-- Whitespace test used by strings.TrimSpace / strings.Fields (ASCII part of
unicode.IsSpace, which is all that build directives contain). -/
def isSpaceChar (c : Char) : Bool :=
  c == ' ' || c == '\t' || c == '\n' || c == '\x0b' || c == '\x0c' || c == '\r'

/-- strings.TrimSpace. -/
def trim (s : Str) : Str :=
  ((s.dropWhile isSpaceChar).reverse.dropWhile isSpaceChar).reverse

/-- strings.HasPrefix. -/
def startsWith (p s : Str) : Bool := decide (s.take p.length = p)

/-- Split a string at every occurrence of a character (strings.Split). -/
def splitOnChar (ch : Char) : Str → List Str
  | [] => [[]]
  | c :: cs =>
    if c = ch then [] :: splitOnChar ch cs
    else
      match splitOnChar ch cs with
      | [] => [[c]]
      | p :: ps => (c :: p) :: ps

/-- Cut a string at the first occurrence of a character, returning the parts
before and after it (strings.Cut / strings.IndexByte followed by slicing). -/
def cutChar (ch : Char) : Str → Option (Str × Str)
  | [] => none
  | c :: cs =>
    if c = ch then some ([], cs)
    else (cutChar ch cs).map (fun p => (c :: p.1, p.2))

/-- The part of a string before the first occurrence of a character, or the
whole string when the character does not occur (the first component of
strings.Cut). -/
def cutBefore (ch : Char) (s : Str) : Str :=
  match cutChar ch s with
  | none => s
  | some p => p.1

/-- strings.Fields: split around runs of whitespace, no empty fields. -/
def fields (s : Str) : List Str :=
  (s.splitOnP isSpaceChar).filter (fun f => f ≠ [])

/-- Lines of a Go byte slice as iterated by the shouldBuild loops: split on
newline, except that a trailing newline does not produce a final empty line. -/
def goLines (s : Str) : List Str :=
  let l := splitOnChar '\n' s
  if l.getLast? = some [] then l.dropLast else l

/-- Insert a key into a string set held as a deduplicated list (the value set
of a Go `map[string]bool` whose entries are only ever set to true). -/
def insertTag (ts : List Str) (t : Str) : List Str :=
  if t ∈ ts then ts else ts ++ [t]

/-- Insert every element of the second list into the first. -/
def insertAllTags (ts : List Str) (new : List Str) : List Str :=
  new.foldl insertTag ts

/-! ## Platform knowledge base (syslist.go and the generated platform list) -/

/-- The known GOOS values (syslist.go `goosList`, sorted as by the init). -/
def knownOSList : List Str :=
  [str "aix", str "android", str "darwin", str "dragonfly", str "freebsd",
   str "hurd", str "illumos", str "ios", str "js", str "linux", str "nacl",
   str "netbsd", str "openbsd", str "plan9", str "solaris", str "windows",
   str "zos"]

/-- The known GOARCH values (syslist.go `goarchList`, sorted). -/
def knownArchList : List Str :=
  [str "386", str "amd64", str "amd64p32", str "arm", str "arm64",
   str "arm64be", str "armbe", str "loong64", str "mips", str "mips64",
   str "mips64le", str "mips64p32", str "mips64p32le", str "mipsle",
   str "ppc", str "ppc64", str "ppc64le", str "riscv", str "riscv64",
   str "s390", str "s390x", str "sparc", str "sparc64", str "wasm"]

/-- Membership in the knownOS map. -/
def knownOS (s : Str) : Bool := decide (s ∈ knownOSList)

/-- Membership in the knownArch map. -/
def knownArch (s : Str) : Bool := decide (s ∈ knownArchList)

/-- The release tags of the pinned go1.19 toolchain (`build.Default.ReleaseTags`,
from which the init builds the knownReleaseTag set). -/
def defaultReleaseTags : List Str :=
  [str "go1.1", str "go1.2", str "go1.3", str "go1.4", str "go1.5",
   str "go1.6", str "go1.7", str "go1.8", str "go1.9", str "go1.10",
   str "go1.11", str "go1.12", str "go1.13", str "go1.14", str "go1.15",
   str "go1.16", str "go1.17", str "go1.18", str "go1.19"]

/-- runtime.GOOS of the host of record. -/
def runtimeGOOS : Str := str "linux"

/-- runtime.GOARCH of the host of record. -/
def runtimeGOARCH : Str := str "amd64"

/-- runtime.Compiler. -/
def runtimeCompiler : Str := str "gc"

/-- A GoPlatform entry of the generated platform list. -/
structure GoPlatform where
  GOOS : Str
  GOARCH : Str
  CgoSupported : Bool
  FirstClass : Bool
  deriving DecidableEq

/-- Modelled from the spec: the generated `DefaultGoPlatforms` list (the
spec's PlatformPair table) is produced from `go tool dist list -json` of the
pinned go1.19 toolchain; the generator is in the repository and the valid
GOOS/GOARCH pairs are recorded in syslist.go.  First-class platforms come
first, with the amd64/arm64 ones before the 386/arm ones, then the remaining
platforms in `go tool dist list` order. -/
def DefaultGoPlatforms : List GoPlatform :=
  [⟨str "darwin", str "amd64", true, true⟩,
   ⟨str "darwin", str "arm64", true, true⟩,
   ⟨str "linux", str "amd64", true, true⟩,
   ⟨str "linux", str "arm64", true, true⟩,
   ⟨str "windows", str "amd64", true, true⟩,
   ⟨str "linux", str "386", true, true⟩,
   ⟨str "linux", str "arm", true, true⟩,
   ⟨str "windows", str "386", true, true⟩,
   ⟨str "aix", str "ppc64", true, false⟩,
   ⟨str "android", str "386", true, false⟩,
   ⟨str "android", str "amd64", true, false⟩,
   ⟨str "android", str "arm", true, false⟩,
   ⟨str "android", str "arm64", true, false⟩,
   ⟨str "dragonfly", str "amd64", true, false⟩,
   ⟨str "freebsd", str "386", true, false⟩,
   ⟨str "freebsd", str "amd64", true, false⟩,
   ⟨str "freebsd", str "arm", true, false⟩,
   ⟨str "freebsd", str "arm64", true, false⟩,
   ⟨str "illumos", str "amd64", true, false⟩,
   ⟨str "ios", str "amd64", true, false⟩,
   ⟨str "ios", str "arm64", true, false⟩,
   ⟨str "js", str "wasm", false, false⟩,
   ⟨str "linux", str "mips", true, false⟩,
   ⟨str "linux", str "mips64", true, false⟩,
   ⟨str "linux", str "mips64le", true, false⟩,
   ⟨str "linux", str "mipsle", true, false⟩,
   ⟨str "linux", str "ppc64", false, false⟩,
   ⟨str "linux", str "ppc64le", true, false⟩,
   ⟨str "linux", str "riscv64", true, false⟩,
   ⟨str "linux", str "s390x", true, false⟩,
   ⟨str "netbsd", str "386", true, false⟩,
   ⟨str "netbsd", str "amd64", true, false⟩,
   ⟨str "netbsd", str "arm", true, false⟩,
   ⟨str "netbsd", str "arm64", true, false⟩,
   ⟨str "openbsd", str "386", true, false⟩,
   ⟨str "openbsd", str "amd64", true, false⟩,
   ⟨str "openbsd", str "arm", true, false⟩,
   ⟨str "openbsd", str "arm64", true, false⟩,
   ⟨str "openbsd", str "mips64", false, false⟩,
   ⟨str "plan9", str "386", false, false⟩,
   ⟨str "plan9", str "amd64", false, false⟩,
   ⟨str "plan9", str "arm", false, false⟩,
   ⟨str "solaris", str "amd64", true, false⟩,
   ⟨str "windows", str "arm", false, false⟩,
   ⟨str "windows", str "arm64", true, false⟩]

/-- createPreferredList: the seed list followed by the projection of every
platform, first occurrence kept. -/
def createPreferredList (orig : List Str) (f : GoPlatform → Str) : List Str :=
  insertAllTags (insertAllTags [] orig) (DefaultGoPlatforms.map f)

/-- PreferredOSList of the matcher. -/
def PreferredOSList : List Str :=
  createPreferredList
    [runtimeGOOS, str "darwin", str "linux", str "windows", str "openbsd",
     str "freebsd", str "netbsd"] (fun p => p.GOOS)

/-- PreferredArchList of the matcher. -/
def PreferredArchList : List Str :=
  createPreferredList
    [runtimeGOARCH, str "amd64", str "arm64", str "arm", str "386",
     str "ppc64"] (fun p => p.GOARCH)

/-- Does the supportedPlatformsOsArch map have an entry for this OS? -/
def osInPlatformTable (os : Str) : Bool :=
  DefaultGoPlatforms.any (fun p => p.GOOS == os)

/-- The arch set supportedPlatformsOsArch[os], as a list in platform order. -/
def supportedArchesFor (os : Str) : List Str :=
  insertAllTags [] ((DefaultGoPlatforms.filter (fun p => p.GOOS == os)).map (fun p => p.GOARCH))

/-- Does the supportedPlatformsArchOs map have an entry for this arch? -/
def archInPlatformTable (arch : Str) : Bool :=
  DefaultGoPlatforms.any (fun p => p.GOARCH == arch)

/-- The OS set supportedPlatformsArchOs[arch], as a list in platform order. -/
def supportedOSesFor (arch : Str) : List Str :=
  insertAllTags [] ((DefaultGoPlatforms.filter (fun p => p.GOARCH == arch)).map (fun p => p.GOOS))

/-- The cgoEnabled map: true exactly for the pairs whose platform entry has
CgoSupported set (absent pairs read as false). -/
def cgoEnabledPair (os arch : Str) : Bool :=
  DefaultGoPlatforms.any (fun p => p.GOOS == os && p.GOARCH == arch && p.CgoSupported)

/-! ## Configuration and the tag oracle -/

/-- The build Configuration (the matching-relevant fields of go/build's
Context; GOROOT/GOPATH and the file-system hooks are out of scope). -/
structure Context where
  GOOS : Str
  GOARCH : Str
  Compiler : Str
  CgoEnabled : Bool
  BuildTags : List Str
  ToolTags : List Str
  ReleaseTags : List Str
  deriving DecidableEq

/-- The OS values satisfying the generic unix alias. -/
def unixOSList : List Str :=
  [str "aix", str "android", str "darwin", str "dragonfly", str "freebsd",
   str "hurd", str "illumos", str "ios", str "linux", str "netbsd",
   str "openbsd", str "solaris"]

/-- Modelled from the spec: the repository's matchTag (the Tag Oracle of §4.1,
whose source file is not under src/): a name is true iff it equals the
Configuration's OS, Arch or compiler, or it is the cgo marker with cgo
enabled, or a fixed OS-alias rule applies (android satisfies linux, illumos
satisfies solaris, ios satisfies darwin, and the POSIX-like OS values satisfy
unix when the release-tag set includes go1.19, the toolchain version that
introduced the alias), or it appears in one of the three tag sets.  Recording
of consulted names is handled by the callers through `insertTag`. -/
def matchTag (c : Context) (name : Str) : Bool :=
  if c.CgoEnabled ∧ name = str "cgo" then true
  else if name = c.GOOS ∨ name = c.GOARCH ∨ name = c.Compiler then true
  else if c.GOOS = str "android" ∧ name = str "linux" then true
  else if c.GOOS = str "illumos" ∧ name = str "solaris" then true
  else if c.GOOS = str "ios" ∧ name = str "darwin" then true
  else if name = str "unix" ∧ c.GOOS ∈ unixOSList ∧ str "go1.19" ∈ c.ReleaseTags then true
  else decide (name ∈ c.BuildTags) || decide (name ∈ c.ToolTags) ||
       decide (name ∈ c.ReleaseTags)

/-- A Context holding only a GOOS, as built by the compatible-OS table. -/
def osOnlyContext (os : Str) : Context :=
  ⟨os, [], [], false, [], [], []⟩

/-- The compatibleOSes table: for an OS value, the other known OS values that
a Context with that GOOS also matches (this is exactly the characterization
the repository's TestCompatibleOsMap pins the generated map to). -/
def compatibleOSes (os : Str) : List Str :=
  knownOSList.filter (fun os2 => os2 ≠ os && matchTag (osOnlyContext os) os2)

/-! ## Constraint expressions -/

/-- Build-constraint expressions (go/build/constraint's Expr). -/
inductive ConstraintExpr where
  | tag (t : Str)
  | not (x : ConstraintExpr)
  | and (x y : ConstraintExpr)
  | or (x y : ConstraintExpr)
  deriving DecidableEq

/-- Evaluation of a constraint expression over the tag oracle (the
repository's eval with a nil recording map). -/
def evalExpr (c : Context) : ConstraintExpr → Bool
  | .tag t => matchTag c t
  | .not x => !(evalExpr c x)
  | .and x y => evalExpr c x && evalExpr c y
  | .or x y => evalExpr c x || evalExpr c y

/-- The tag names an expression consults, in left-to-right evaluation order
(And/Or evaluate both branches unconditionally, so every referenced name is
consulted; duplicates are removed on insertion into the consulted set). -/
def exprTags : ConstraintExpr → List Str
  | .tag t => [t]
  | .not x => exprTags x
  | .and x y => exprTags x ++ exprTags y
  | .or x y => exprTags x ++ exprTags y

/-- lookupTag: whether the tag occurs in the expression and, if so, with which
negation parity; only the first occurrence found (left subtree first) is
reported. -/
def lookupTag : ConstraintExpr → Str → Bool × Bool
  | .tag t, tag => if t = tag then (true, false) else (false, false)
  | .not x, tag =>
    match lookupTag x tag with
    | (false, _) => (false, false)
    | (true, neg) => (true, !neg)
  | .and x y, tag =>
    match lookupTag x tag with
    | (true, neg) => (true, neg)
    | (false, _) => lookupTag y tag
  | .or x y, tag =>
    match lookupTag x tag with
    | (true, neg) => (true, neg)
    | (false, _) => lookupTag y tag

/-- isGoReleaseTag: a member of the knownReleaseTag set, or a string of the
form go1.N (the `^go1\.\d+$` pattern). -/
def isGoReleaseTag (s : Str) : Bool :=
  decide (s ∈ defaultReleaseTags) ||
    (startsWith (str "go1.") s && decide (s.drop 4 ≠ []) && (s.drop 4).all Char.isDigit)

/-- isGoExperimentTag. -/
def isGoExperimentTag (s : Str) : Bool := startsWith (str "goexperiment.") s

/-- isInternalTag: tags the matcher will not treat as ordinary build tags. -/
def isInternalTag (c : Context) (name : Str) : Bool :=
  name == str "gc" || name == str "gccgo" || knownOS name || knownArch name ||
  isGoExperimentTag name || isGoReleaseTag name ||
  decide (name ∈ c.ToolTags) || decide (name ∈ c.ReleaseTags)

/-- Error classification of the matcher (the sentinel errors of the source). -/
inductive ErrKind where
  | impossibleGoVersion
  | matchContext
  | compilerMismatchGc
  | compilerMismatchGccGo
  | compilerNegatedGc
  | compilerNegatedGccGo
  | multipleGoBuild
  | badGoBuildExpr
  | nilConstraint
  | noBuildTags
  deriving DecidableEq

/-- A MatchError: path, permanence flag, underlying error. -/
structure MatchError where
  Path : Str
  Permanent : Bool
  Err : ErrKind
  deriving DecidableEq

/-- checkCompiler: the compiler-compatibility check on the expression. -/
def checkCompiler (c : Context) (x : ConstraintExpr) : Option ErrKind :=
  if c.Compiler = str "gc" then
    match lookupTag x (str "gccgo") with
    | (true, false) => some .compilerMismatchGccGo
    | _ =>
      match lookupTag x (str "gc") with
      | (true, true) => some .compilerNegatedGc
      | _ => none
  else if c.Compiler = str "gccgo" then
    match lookupTag x (str "gc") with
    | (true, false) => some .compilerMismatchGc
    | _ =>
      match lookupTag x (str "gccgo") with
      | (true, true) => some .compilerNegatedGccGo
      | _ => none
  else none

/-! ## Tag-set helpers (internal/util, value level) -/

/-- util.StringsContains. -/
def StringsContains (a : List Str) (v : Str) : Bool := decide (v ∈ a)

/-- util.StringsAppend: append if not present. -/
def StringsAppend (a : List Str) (v : Str) : List Str :=
  if v ∈ a then a else a ++ [v]

/-- util.StringsRemoveAll, at the value level (the in-place behaviour over the
backing array is modelled separately in the slice model). -/
def StringsRemoveAll (a : List Str) (v : Str) : List Str :=
  a.filter (fun s => s ≠ v)

/-! ## goodOSArchFile (file.go) -/

/-- The single-trailing-component check of goodOSArchFile: if the last
component is a known OS or arch it must match; recording goes through the
consulted set. -/
def suffixSingle (c : Context) (tags : List Str) (last : Str) : Bool × List Str :=
  if knownOS last || knownArch last then
    (matchTag c last, insertTag tags last)
  else (true, tags)

/-- The trailing-component checks of goodOSArchFile, taking the component
list already reversed (its head is the last component): the last two
components as OS and arch if both are known, else the last alone. -/
def suffixMatch (c : Context) (tags : List Str) : List Str → Bool × List Str
  | [] => (true, tags)
  | [last] => suffixSingle c tags last
  | last :: os :: _ =>
    if knownOS os && knownArch last then
      -- okArch is computed first, so the arch name is recorded first
      let okArch := matchTag c last
      let okOS := matchTag c os
      (okArch && okOS, insertTag (insertTag tags last) os)
    else suffixSingle c tags last

/-- The component checks of goodOSArchFile after the name has been split on
underscores: drop a trailing test component, then check the trailing
components. -/
def suffixAccept (c : Context) (tags : List Str) (l : List Str) : Bool × List Str :=
  let l := if l.getLast? = some (str "test") then l.dropLast else l
  suffixMatch c tags l.reverse

/-- goodOSArchFile: cut the name at the first dot, then if an underscore is
present split everything from the first underscore on (`name[i:]`, which
starts with the underscore and hence contributes a leading empty component)
and apply the component checks. -/
def goodOSArchFile (c : Context) (name : Str) (tags : List Str) : Bool × List Str :=
  let stem := cutBefore '.' name
  match cutChar '_' stem with
  | none => (true, tags)
  | some p => suffixAccept c tags ([] :: splitOnChar '_' p.2)

/-- The filename suffix rule exactly as the specification words it: strip the
extension; no underscore means no platform requirement; otherwise discard
everything up to and including the first underscore, split the remainder on
underscores, drop a trailing test component, and then require the last two
components (a known OS followed by a known arch) to match, else the last
component alone if it is a known OS or arch, else accept. -/
def specGoodOSArchFile (c : Context) (name : Str) : Bool :=
  let stem := cutBefore '.' name
  match cutChar '_' stem with
  | none => true
  | some p =>
    let l := splitOnChar '_' p.2
    let l := if l.getLast? = some (str "test") then l.dropLast else l
    match l.reverse with
    | [] => true
    | [last] =>
      if knownOS last || knownArch last then matchTag c last else true
    | last :: os :: _ =>
      if knownOS os && knownArch last then matchTag c os && matchTag c last
      else if knownOS last || knownArch last then matchTag c last
      else true

/-! ## Directive parsing (modelled from the spec, §4.2 and §6) -/

/-- Identifier characters of a build tag: letters, digits, underscore, dot
(the ASCII part of the directive grammar). -/
def isTagChar (c : Char) : Bool := c.isAlpha || c.isDigit || c == '_' || c == '.'

/-- Tokens of a go:build expression. -/
inductive BTok where
  | ident (s : Str)
  | opAnd
  | opOr
  | opNot
  | lpar
  | rpar
  deriving DecidableEq

/-- Lexer step for the go:build expression grammar.  The fuel is an upper
bound on the remaining length (every step consumes at least one character),
kept as an explicit structural argument. -/
def lexFuel : Nat → Str → Except ErrKind (List BTok)
  | _, [] => .ok []
  | 0, _ :: _ => .error .badGoBuildExpr
  | fuel + 1, c :: cs =>
    if c = ' ' ∨ c = '\t' then lexFuel fuel cs
    else if c = '(' then (lexFuel fuel cs).map (fun ts => .lpar :: ts)
    else if c = ')' then (lexFuel fuel cs).map (fun ts => .rpar :: ts)
    else if c = '!' then (lexFuel fuel cs).map (fun ts => .opNot :: ts)
    else if c = '&' then
      match cs with
      | '&' :: cs' => (lexFuel fuel cs').map (fun ts => .opAnd :: ts)
      | _ => .error .badGoBuildExpr
    else if c = '|' then
      match cs with
      | '|' :: cs' => (lexFuel fuel cs').map (fun ts => .opOr :: ts)
      | _ => .error .badGoBuildExpr
    else if isTagChar c then
      (lexFuel fuel (cs.dropWhile isTagChar)).map
        (fun ts => .ident (c :: cs.takeWhile isTagChar) :: ts)
    else .error .badGoBuildExpr

/-- Lexer for the go:build expression grammar. -/
def lexConstraint (s : Str) : Except ErrKind (List BTok) := lexFuel s.length s

/-- Recursive-descent parser for the go:build grammar, by precedence level:
level 0 parses or-chains, level 1 and-chains, any other level a primary
(identifier, negation or parenthesized expression).  Chains associate to the
right, which is observationally equivalent for evaluation, consulted-tag
order and first-occurrence lookup.  The fuel argument is structural and large
enough that it is never exhausted on a lexed token list. -/
def parseLvl : Nat → Nat → List BTok → Except ErrKind (ConstraintExpr × List BTok)
  | 0, _, _ => .error .badGoBuildExpr
  | fuel + 1, 0, ts =>
    match parseLvl fuel 1 ts with
    | .ok (e, .opOr :: ts') => (parseLvl fuel 0 ts').map (fun p => (.or e p.1, p.2))
    | r => r
  | fuel + 1, 1, ts =>
    match parseLvl fuel 2 ts with
    | .ok (e, .opAnd :: ts') => (parseLvl fuel 1 ts').map (fun p => (.and e p.1, p.2))
    | r => r
  | fuel + 1, _ + 2, ts =>
    match ts with
    | .ident s :: ts' => .ok (.tag s, ts')
    | .opNot :: ts' => (parseLvl fuel 2 ts').map (fun p => (.not p.1, p.2))
    | .lpar :: ts' =>
      match parseLvl fuel 0 ts' with
      | .ok (e, .rpar :: ts'') => .ok (e, ts'')
      | .ok _ => .error .badGoBuildExpr
      | .error e => .error e
    | _ => .error .badGoBuildExpr

/-- Parse a full go:build expression string. -/
def parseGoBuildExpr (s : Str) : Except ErrKind ConstraintExpr :=
  match lexConstraint s with
  | .error e => .error e
  | .ok ts =>
    match parseLvl (3 * ts.length + 6) 0 ts with
    | .error e => .error e
    | .ok (e, []) => .ok e
    | .ok _ => .error .badGoBuildExpr

/-- The leading run of comment and blank lines: it extends through the last
blank line that occurs before the first non-comment, non-blank line (the Pass
1 loop of shouldBuild; `committed` is the run so far, `buffer` holds the
comment lines seen since the last blank line). -/
def leadingRunAux : List Str → List Str → List Str → List Str
  | committed, _, [] => committed
  | committed, buffer, line :: rest =>
    let t := trim line
    if t = [] then leadingRunAux (committed ++ buffer ++ [line]) [] rest
    else if startsWith (str "//") t then leadingRunAux committed (buffer ++ [line]) rest
    else committed

/-- The leading directive run of a file's lines. -/
def leadingRun (lines : List Str) : List Str := leadingRunAux [] [] lines

/-- The expression payload of a modern directive line, when the line is one. -/
def goBuildPayload (line : Str) : Option Str :=
  let t := trim line
  if startsWith (str "//go:build") t then
    match t.drop 10 with
    | [] => some []
    | c :: rest => if c = ' ' ∨ c = '\t' then some (trim (c :: rest)) else none
  else none

/-- The space-separated tokens of a legacy directive line, when the line is
one (a comment whose body starts with + and whose first field is +build). -/
def plusBuildToks (line : Str) : Option (List Str) :=
  let t := trim line
  if startsWith (str "//") t then
    let l := trim (t.drop 2)
    if l ≠ [] ∧ l.head? = some '+' then
      match fields l with
      | f0 :: toks => if f0 = str "+build" then some toks else none
      | [] => none
    else none
  else none

/-- The expression of one legacy token: comma-separated parts are conjoined,
and a part may carry a leading negation marker. -/
def legacyTokExpr (tok : Str) : ConstraintExpr :=
  match (splitOnChar ',' tok).map
      (fun p => if startsWith (str "!") p then ConstraintExpr.not (.tag (p.drop 1))
                else ConstraintExpr.tag p) with
  | [] => .tag []
  | e :: es => es.foldl .and e

/-- The expression of one legacy line: its tokens are disjoined. -/
def legacyLineExpr (toks : List Str) : ConstraintExpr :=
  match toks.map legacyTokExpr with
  | [] => .tag []
  | e :: es => es.foldl .or e

/-- Modelled from the spec: parseBuildConstraint (whose source file is not
under src/) turns the directive comments of the leading run into one
constraint expression: at most one modern go:build line may appear (a second
is a syntax error) and, if present, it alone governs; otherwise the legacy
lines are conjoined, each line disjoining its space-separated tokens.  A file
without directives has no constraint (`none`).  Legacy lines without tokens
are not given an expression here; no claim exercises them through the modern
path (the legacy evaluator of buildutil.go, which rejects them, is embedded
separately below). -/
def parseBuildConstraint (content : Str) : Except ErrKind (Option ConstraintExpr) :=
  let run := leadingRun (goLines content)
  match run.filterMap goBuildPayload with
  | [] =>
    match ((run.filterMap plusBuildToks).filter (fun ts => ts ≠ [])).map legacyLineExpr with
    | [] => .ok none
    | e :: es => .ok (some (es.foldl .and e))
  | [payload] => (parseGoBuildExpr payload).map some
  | _ => .error .multipleGoBuild

/-- Modelled from the spec: shouldBuild (the go1.17-style three-result
version whose source file is not under src/) evaluates the file's constraint
expression against the configuration, recording every consulted tag into the
consulted set; a file without directives is accepted.  The binary-only flag
is out of scope (no claim consults it). -/
def shouldBuild (c : Context) (content : Str) (tags : List Str) :
    Except ErrKind (Bool × List Str) :=
  match parseBuildConstraint content with
  | .error e => .error e
  | .ok none => .ok (true, tags)
  | .ok (some x) => .ok (evalExpr c x, insertAllTags tags (exprTags x))

/-! ## The context matcher (MatchContext of the repository core) -/

/-- Reordering functions standing for the unspecified iteration order of each
Go map the matcher ranges over. -/
structure MapOrder where
  fnameOrd : List Str → List Str
  goexpOrd : List Str → List Str
  toggleOrd : List Str → List Str
  releaseOrd : List Str → List Str
  archOrd : List Str → List Str
  osOrd : List Str → List Str

/-- The identity order: one admissible execution. -/
def MapOrder.idOrd : MapOrder := ⟨id, id, id, id, id, id⟩

/-- filepath.Base, for the slash-separated paths the claims use. -/
def baseName (s : Str) : Str := (splitOnChar '/' s).getLastD []

/-- The defaulting step: empty OS/Arch/compiler fields are filled from the
host's values. -/
def applyDefaults (c : Context) : Context :=
  { c with
    GOARCH := if c.GOARCH = [] then runtimeGOARCH else c.GOARCH
    GOOS := if c.GOOS = [] then runtimeGOOS else c.GOOS
    Compiler := if c.Compiler = [] then runtimeCompiler else c.Compiler }

/-- findSupportedArch: an arch valid for the context's GOOS — the current one
if the pair is valid (or the OS has no table entry), else the first preferred
arch the OS supports, else the first supported arch in iteration order. -/
def findSupportedArch (ord : MapOrder) (c : Context) : Option Str :=
  let arches := supportedArchesFor c.GOOS
  if !osInPlatformTable c.GOOS || decide (c.GOARCH ∈ arches) then some c.GOARCH
  else
    match PreferredArchList.find? (fun a => decide (a ∈ arches)) with
    | some a => some a
    | none => (ord.archOrd arches).head?

/-- findSupportedOS, symmetric to findSupportedArch. -/
def findSupportedOS (ord : MapOrder) (c : Context) : Option Str :=
  let oses := supportedOSesFor c.GOARCH
  if !archInPlatformTable c.GOARCH || decide (c.GOOS ∈ oses) then some c.GOOS
  else
    match PreferredOSList.find? (fun o => decide (o ∈ oses)) with
    | some o => some o
    | none => (ord.osOrd oses).head?

/-- The result of the filename-authority step. -/
structure FilenameRes where
  ctxt : Context
  requiredOS : Option (List Str)
  requiredArch : Str
  tags : List Str
  deriving DecidableEq

/-- The filename-authority step of MatchContext: if the base name fails the
suffix rule, overwrite GOOS/GOARCH from the recorded suffix tags (removing
them from the consulted set) and record them as required; extend the required
OS set with its compatible aliases; and when only one dimension was mandated,
repair the other so the pair is valid. -/
def filenamePhase (ord : MapOrder) (c : Context) (base : Str) : FilenameRes :=
  let r := goodOSArchFile c base []
  let st :=
    if r.1 then ({ ctxt := c, requiredOS := none, requiredArch := [], tags := r.2 } : FilenameRes)
    else
      (ord.fnameOrd r.2).foldl
        (fun (st : FilenameRes) tag =>
          if knownOS tag then
            { st with ctxt := { st.ctxt with GOOS := tag }, requiredOS := some [tag],
                      tags := st.tags.filter (fun t => t ≠ tag) }
          else if knownArch tag then
            { st with ctxt := { st.ctxt with GOARCH := tag }, requiredArch := tag,
                      tags := st.tags.filter (fun t => t ≠ tag) }
          else st)
        { ctxt := c, requiredOS := none, requiredArch := [], tags := r.2 }
  let st :=
    match st.requiredOS with
    | none => st
    | some ros => { st with requiredOS := some (ros ++ compatibleOSes st.ctxt.GOOS) }
  match st.requiredOS, st.requiredArch with
  | some _, [] =>
    match findSupportedArch ord st.ctxt with
    | some a => { st with ctxt := { st.ctxt with GOARCH := a } }
    | none => st
  | none, _ :: _ =>
    match findSupportedOS ord st.ctxt with
    | some o => { st with ctxt := { st.ctxt with GOOS := o } }
    | none => st
  | _, _ => st

/-- The GOEXPERIMENT step: align the toolchain-tag set with the polarity the
expression requires for every consulted goexperiment tag. -/
def goexpPhase (ord : MapOrder) (c : Context) (tags : List Str)
    (x : ConstraintExpr) : Context :=
  (ord.goexpOrd tags).foldl
    (fun c name =>
      if isGoExperimentTag name then
        match lookupTag x name with
        | (false, _) => c
        | (true, true) => { c with ToolTags := StringsRemoveAll c.ToolTags name }
        | (true, false) => { c with ToolTags := StringsAppend c.ToolTags name }
      else c) c

/-- One toggle of an ordinary build tag, to the polarity the expression
requires, applied to an explicit BuildTags value. -/
def toggledBuildTags (x : ConstraintExpr) (bt : List Str) (tag : Str) : List Str :=
  match lookupTag x tag with
  | (true, true) => StringsRemoveAll bt tag
  | (true, false) => StringsAppend bt tag
  | (false, _) => bt

/-- The single-toggle loop of the ordinary-tag step.  `arr` is the current
contents of the backing array of the copied BuildTags slice: a failed removal
attempt leaves the array compacted (`kept ++ arr.drop kept.length`) because
StringsRemoveAll filters in place, and the restored slice header then exposes
that modified array; a failed append attempt leaves the array unchanged
because the copied slice is full (cap = len) and append reallocates. -/
def toggleLoop (c : Context) (x : ConstraintExpr) : List Str → List Str → Option Context
  | _, [] => none
  | arr, tag :: rest =>
    match lookupTag x tag with
    | (false, _) => toggleLoop c x arr rest
    | (true, true) =>
      let kept := StringsRemoveAll arr tag
      let c' := { c with BuildTags := kept }
      if evalExpr c' x then some c'
      else toggleLoop c x (kept ++ arr.drop kept.length) rest
    | (true, false) =>
      let c' := { c with BuildTags := StringsAppend arr tag }
      if evalExpr c' x then some c'
      else toggleLoop c x arr rest

/-- The ordinary-tag step: try toggling each non-internal consulted tag alone
(first success wins), then all of them together starting from a duplicate of
the original BuildTags. -/
def tagTogglePhase (ord : MapOrder) (c : Context) (tags : List Str)
    (x : ConstraintExpr) : Option Context :=
  let bts := (ord.toggleOrd tags).filter (fun n => !(isInternalTag c n))
  if bts = [] then none
  else
    match toggleLoop c x c.BuildTags bts with
    | some c' => some c'
    | none =>
      let call := bts.foldl (fun cc tag => { cc with BuildTags := toggledBuildTags x cc.BuildTags tag }) c
      if evalExpr call x then some call else none

/-- The release gate: some consulted release tag whose required polarity
contradicts the release-tag set. -/
def releaseContradiction (ord : MapOrder) (c : Context) (tags : List Str)
    (x : ConstraintExpr) : Bool :=
  (ord.releaseOrd tags).any fun name =>
    isGoReleaseTag name &&
      match lookupTag x name with
      | (false, _) => false
      | (true, neg) =>
        let hasRelease := decide (name ∈ c.ReleaseTags)
        (neg && hasRelease) || (!neg && !hasRelease)

/-- The cgo step: if the cgo marker was consulted and the flag may be
meaningfully toggled on this pair, toggle it and re-evaluate. -/
def cgoPhase (c : Context) (tags : List Str) (x : ConstraintExpr) : Option Context :=
  if str "cgo" ∈ tags then
    if c.CgoEnabled || cgoEnabledPair c.GOOS c.GOARCH then
      let c' := { c with CgoEnabled := !c.CgoEnabled }
      if evalExpr c' x then some c' else none
    else none
  else none

/-- matchGOARCH: keep the pair if already valid (or the OS untabled), else
search an arch the OS supports — preferred list first, then all supported
arches in iteration order. -/
def matchGOARCH (ord : MapOrder) (c : Context) (x : ConstraintExpr) : Option Context :=
  let arches := supportedArchesFor c.GOOS
  if !osInPlatformTable c.GOOS || decide (c.GOARCH ∈ arches) then
    if evalExpr c x then some c else none
  else
    match PreferredArchList.findSome? (fun a =>
        if a ∈ arches then
          let c' := { c with GOARCH := a }
          if evalExpr c' x then some c' else none
        else none) with
    | some c' => some c'
    | none =>
      (ord.archOrd arches).findSome? (fun a =>
        let c' := { c with GOARCH := a }
        if evalExpr c' x then some c' else none)

/-- matchGOOS, symmetric to matchGOARCH. -/
def matchGOOS (ord : MapOrder) (c : Context) (x : ConstraintExpr) : Option Context :=
  let oses := supportedOSesFor c.GOARCH
  if !archInPlatformTable c.GOARCH || decide (c.GOOS ∈ oses) then
    if evalExpr c x then some c else none
  else
    match PreferredOSList.findSome? (fun o =>
        if o ∈ oses then
          let c' := { c with GOOS := o }
          if evalExpr c' x then some c' else none
        else none) with
    | some c' => some c'
    | none =>
      (ord.osOrd oses).findSome? (fun o =>
        let c' := { c with GOOS := o }
        if evalExpr c' x then some c' else none)

/-- The broad platform search: when the expression references both OS and
arch identifiers walk the platform table (honouring the filename-mandated
restrictions), trying each candidate with its cgo default and then without
cgo; when it references only one dimension walk that preferred list, fixing
the other dimension up to a supported value. -/
def platformPhase (ord : MapOrder) (c : Context) (requiredOS : Option (List Str))
    (requiredArch : Str) (tags : List Str) (x : ConstraintExpr) : Option Context :=
  let hasOS := tags.any knownOS
  let hasArch := tags.any knownArch
  if hasOS && hasArch then
    DefaultGoPlatforms.findSome? (fun p =>
      if p.GOOS = c.GOOS ∧ p.GOARCH = c.GOARCH then none
      else if requiredArch ≠ [] ∧ p.GOARCH ≠ requiredArch then none
      else if (match requiredOS with
               | some ros => decide (p.GOOS ∉ ros)
               | none => false) then none
      else
        let c' := { c with GOOS := p.GOOS, GOARCH := p.GOARCH, CgoEnabled := p.CgoSupported }
        if evalExpr c' x then some c'
        else if c'.CgoEnabled then
          let c'' := { c' with CgoEnabled := false }
          if evalExpr c'' x then some c'' else none
        else none)
  else if hasOS then
    PreferredOSList.findSome? (fun os =>
      if os = c.GOOS then none
      else if (match requiredOS with
               | some ros => decide (os ∉ ros)
               | none => false) then none
      else matchGOARCH ord { c with GOOS := os } x)
  else if hasArch then
    PreferredArchList.findSome? (fun a =>
      if a = c.GOARCH then none
      else if requiredArch ≠ [] ∧ a ≠ requiredArch then none
      else matchGOOS ord { c with GOARCH := a } x)
  else none

/-- The resolution chain applied once direct evaluation has failed and the
constraint expression is in hand: GOEXPERIMENT alignment, ordinary-tag
toggles, the permanent release gate, the permanent compiler check, the cgo
toggle, the broad platform search, and finally the non-permanent no-match
error. -/
def matchResolve (ord : MapOrder) (c : Context) (requiredOS : Option (List Str))
    (requiredArch : Str) (tags : List Str) (x : ConstraintExpr)
    (filename : Str) : Except MatchError Context :=
  let c1 := goexpPhase ord c tags x
  if evalExpr c1 x then .ok c1
  else
    match tagTogglePhase ord c1 tags x with
    | some c' => .ok c'
    | none =>
      if releaseContradiction ord c1 tags x then
        .error ⟨filename, true, .impossibleGoVersion⟩
      else if str "gc" ∈ tags ∨ str "gccgo" ∈ tags then
        match checkCompiler c1 x with
        | some e => .error ⟨filename, true, e⟩
        | none =>
          match cgoPhase c1 tags x with
          | some c' => .ok c'
          | none =>
            match platformPhase ord c1 requiredOS requiredArch tags x with
            | some c' => .ok c'
            | none => .error ⟨filename, false, .matchContext⟩
      else
        match cgoPhase c1 tags x with
        | some c' => .ok c'
        | none =>
          match platformPhase ord c1 requiredOS requiredArch tags x with
          | some c' => .ok c'
          | none => .error ⟨filename, false, .matchContext⟩

/-- MatchContext: default the empty fields of a private copy of the caller's
configuration, enforce the filename suffix rule, accept on direct evaluation,
and otherwise parse the constraint expression and run the resolution chain. -/
def MatchContext (ord : MapOrder) (orig : Context) (filename src : Str) :
    Except MatchError Context :=
  let c0 := applyDefaults orig
  let fr := filenamePhase ord c0 (baseName filename)
  match shouldBuild fr.ctxt src fr.tags with
  | .error e => .error ⟨filename, false, e⟩
  | .ok (true, _) => .ok fr.ctxt
  | .ok (false, tags) =>
    match parseBuildConstraint src with
    | .error e => .error ⟨filename, false, e⟩
    | .ok none => .error ⟨filename, false, .nilConstraint⟩
    | .ok (some x) =>
      if tags = [] then .error ⟨filename, false, .noBuildTags⟩
      else matchResolve ord fr.ctxt fr.requiredOS fr.requiredArch tags x filename

/-! ## Concrete scenarios -/

/-- A starting configuration: linux/amd64, gc, cgo off, no extra tags, the
default release tags. -/
def startLinuxAmd64 : Context :=
  ⟨str "linux", str "amd64", str "gc", false, [], [], defaultReleaseTags⟩

/-- The configuration the matcher produces for the filename-authority
scenario: the same configuration with GOOS switched to windows. -/
def resultWindowsAmd64 : Context :=
  ⟨str "windows", str "amd64", str "gc", false, [], [], defaultReleaseTags⟩

/-- A file whose name mandates GOOS=linux but whose directive demands the
windows tag. -/
def fileLinuxName : Str := str "x_linux.go"

/-- Source of the conflicting file: a modern directive requiring windows. -/
def srcWindows : Str := str "//go:build windows\n\npackage x\n"

/-- A reversing map order, standing for an execution in which Go's randomized
map iteration visited the consulted tags in the opposite order. -/
def MapOrder.revOrd : MapOrder := ⟨id, id, List.reverse, id, id, id⟩

/-- The claim C1 counterexample file evaluated: MatchContext accepts the
windows configuration for x_linux.go even though that configuration fails
the filename suffix rule (goodOSArchFile, which MatchFile would apply,
rejects it), because the filename requirement is only recorded when the
starting configuration already fails the suffix check. -/
theorem matchContext_violates_filename_authority :
    MatchContext .idOrd startLinuxAmd64 fileLinuxName srcWindows
        = .ok resultWindowsAmd64 ∧
      (goodOSArchFile resultWindowsAmd64 (baseName fileLinuxName) []).1 = false := by
  decide

/-- The claim C2 counterexample evaluated: the first call on the
filename-authority scenario succeeds with the windows configuration, and
re-running the matcher on that output for the same file does not succeed at
the direct-evaluation step — it fails outright with the non-permanent
no-match error, because the filename rule now rewrites GOOS back to linux and
the windows requirement can no longer be satisfied inside the required OS
set. -/
theorem matchContext_not_idempotent :
    MatchContext .idOrd startLinuxAmd64 fileLinuxName srcWindows
        = .ok resultWindowsAmd64 ∧
      MatchContext .idOrd resultWindowsAmd64 fileLinuxName srcWindows
        = .error ⟨fileLinuxName, false, .matchContext⟩ := by
  decide

/-- The claim C8 counterexample evaluated: with identical inputs, two
executions that differ only in the (unspecified) iteration order of the
consulted-tag map return different configurations — the single-tag toggle
loop adds whichever satisfiable tag it reaches first. -/
theorem matchContext_depends_on_map_order :
    MatchContext .idOrd startLinuxAmd64 (str "main.go")
        (str "//go:build tag1 || tag2\n\npackage p\n")
      ≠ MatchContext .revOrd startLinuxAmd64 (str "main.go")
        (str "//go:build tag1 || tag2\n\npackage p\n") := by
  decide

/-! ## Helper lemmas about the consulted-tag set -/

theorem mem_insertTag_of_mem {ts : List Str} {a t : Str} (h : a ∈ ts) :
    a ∈ insertTag ts t := by
  unfold insertTag
  split
  · exact h
  · exact List.mem_append_left _ h

theorem mem_insertTag_self (ts : List Str) (t : Str) : t ∈ insertTag ts t := by
  unfold insertTag
  split
  · assumption
  · exact List.mem_append_right _ (List.mem_singleton.mpr rfl)

theorem mem_insertAllTags_of_mem_left {ts new : List Str} {a : Str} (h : a ∈ ts) :
    a ∈ insertAllTags ts new := by
  induction new generalizing ts with
  | nil => exact h
  | cons n ns ih => exact ih (mem_insertTag_of_mem h)

theorem mem_insertAllTags_of_mem_right {ts new : List Str} {a : Str} (h : a ∈ new) :
    a ∈ insertAllTags ts new := by
  induction new generalizing ts with
  | nil => cases h
  | cons n ns ih =>
    rcases List.mem_cons.mp h with h | h
    · subst h
      show a ∈ insertAllTags (insertTag ts a) ns
      exact mem_insertAllTags_of_mem_left (mem_insertTag_self ts a)
    · exact ih h

/-- A tag that lookupTag finds occurs among the expression's consulted tags. -/
theorem lookupTag_found_mem_exprTags {x : ConstraintExpr} {t : Str} {neg : Bool}
    (h : lookupTag x t = (true, neg)) : t ∈ exprTags x := by
  induction x generalizing neg with
  | tag s =>
    unfold lookupTag at h
    by_cases hst : s = t
    · subst hst
      simp [exprTags]
    · simp [hst] at h
  | not x ih =>
    unfold lookupTag at h
    rcases hx : lookupTag x t with ⟨found, n⟩
    rw [hx] at h
    cases found
    · simp at h
    · exact ih hx
  | and x y ihx ihy =>
    unfold lookupTag at h
    rcases hx : lookupTag x t with ⟨found, n⟩
    rw [hx] at h
    cases found
    · exact List.mem_append_right _ (ihy h)
    · cases h
      exact List.mem_append_left _ (ihx hx)
  | or x y ihx ihy =>
    unfold lookupTag at h
    rcases hx : lookupTag x t with ⟨found, n⟩
    rw [hx] at h
    cases found
    · exact List.mem_append_right _ (ihy h)
    · cases h
      exact List.mem_append_left _ (ihx hx)

/-- The consulted-tag set a successful shouldBuild returns. -/
theorem shouldBuild_tags_eq {c : Context} {src : Str} {t0 tags : List Str}
    {b : Bool} {x : ConstraintExpr}
    (hpc : parseBuildConstraint src = .ok (some x))
    (hsb : shouldBuild c src t0 = .ok (b, tags)) :
    tags = insertAllTags t0 (exprTags x) := by
  unfold shouldBuild at hsb
  rw [hpc] at hsb
  cases hsb
  rfl

/-! ## The permanent gates (claims C4 and C5) -/

/-- The claim C4 theorem: whenever the matcher reaches the release gate —
direct evaluation failed, the constraint parsed, the consulted set is
non-empty, neither the GOEXPERIMENT-adjusted evaluation nor the ordinary-tag
toggles succeeded — and some consulted toolchain-release tag is required with
a polarity contradicting the release-tag set (required positively but absent,
or required negated but present), MatchContext fails with a MatchError whose
Permanent flag is true and whose underlying error is ErrImpossibleGoVersion.
The map-iteration orders are arbitrary permutations. -/
theorem matchContext_release_gate_permanent
    (ord : MapOrder) (orig : Context) (filename src : Str)
    (fr : FilenameRes) (tags : List Str) (x : ConstraintExpr) (c1 : Context)
    (hfr : filenamePhase ord (applyDefaults orig) (baseName filename) = fr)
    (hsb : shouldBuild fr.ctxt src fr.tags = .ok (false, tags))
    (hpc : parseBuildConstraint src = .ok (some x))
    (hne : tags ≠ [])
    (hc1 : goexpPhase ord fr.ctxt tags x = c1)
    (hev : evalExpr c1 x = false)
    (htg : tagTogglePhase ord c1 tags x = none)
    (hperm : ∀ l, List.Perm (ord.releaseOrd l) l)
    (hcontra : ∃ name ∈ tags, isGoReleaseTag name = true ∧
        ∃ neg, lookupTag x name = (true, neg) ∧
          ((neg = true ∧ name ∈ c1.ReleaseTags) ∨ (neg = false ∧ name ∉ c1.ReleaseTags))) :
    MatchContext ord orig filename src = .error ⟨filename, true, .impossibleGoVersion⟩ := by
  have hrc : releaseContradiction ord c1 tags x = true := by
    rcases hcontra with ⟨name, hmem, hrel, neg, hlt, hpol⟩
    unfold releaseContradiction
    rw [List.any_eq_true]
    refine ⟨name, ((hperm tags).mem_iff).mpr hmem, ?_⟩
    rw [hrel, hlt]
    rcases hpol with ⟨hn, hmemR⟩ | ⟨hn, hmemR⟩ <;> subst hn <;> simp [hmemR]
  simp only [MatchContext]
  rw [hfr, hsb, hpc]
  dsimp only
  rw [if_neg hne]
  simp only [matchResolve]
  rw [hc1, hev]
  simp [htg, hrc]

/-- Claim C4 witness: the spec's Example B — a file requiring go1.99 against
a release-tag set that tops out at go1.19 fails permanently with
ErrImpossibleGoVersion, through the release-gate theorem. -/
theorem matchContext_release_gate_permanent_witness :
    MatchContext .idOrd startLinuxAmd64 (str "main.go")
        (str "//go:build go1.99\n\npackage p\n")
      = .error ⟨str "main.go", true, .impossibleGoVersion⟩ := by
  refine matchContext_release_gate_permanent .idOrd startLinuxAmd64 (str "main.go")
    (str "//go:build go1.99\n\npackage p\n")
    (filenamePhase .idOrd (applyDefaults startLinuxAmd64) (baseName (str "main.go")))
    [str "go1.99"] (.tag (str "go1.99"))
    (goexpPhase .idOrd (filenamePhase .idOrd (applyDefaults startLinuxAmd64)
      (baseName (str "main.go"))).ctxt [str "go1.99"] (.tag (str "go1.99")))
    rfl (by decide) (by decide) (by decide) rfl (by decide) (by decide)
    (fun l => List.Perm.refl l) ?_
  exact ⟨str "go1.99", by decide, by decide, false, by decide, Or.inr ⟨rfl, by decide⟩⟩

/-- The claim C5 theorem: whenever the matcher reaches the compiler check —
all earlier steps failed and the release gate did not fire — and the
expression conflicts with the configured compiler (it positively requires the
other compiler, or negates the configured one, on the first-occurrence
polarity), MatchContext returns a MatchError with Permanent set to true
carrying one of the compiler-mismatch/compiler-negated errors. -/
theorem matchContext_compiler_check_permanent
    (ord : MapOrder) (orig : Context) (filename src : Str)
    (fr : FilenameRes) (tags : List Str) (x : ConstraintExpr) (c1 : Context)
    (hfr : filenamePhase ord (applyDefaults orig) (baseName filename) = fr)
    (hsb : shouldBuild fr.ctxt src fr.tags = .ok (false, tags))
    (hpc : parseBuildConstraint src = .ok (some x))
    (hne : tags ≠ [])
    (hc1 : goexpPhase ord fr.ctxt tags x = c1)
    (hev : evalExpr c1 x = false)
    (htg : tagTogglePhase ord c1 tags x = none)
    (hrel : releaseContradiction ord c1 tags x = false)
    (hconf : (c1.Compiler = str "gc" ∧
                (lookupTag x (str "gccgo") = (true, false) ∨
                 lookupTag x (str "gc") = (true, true))) ∨
             (c1.Compiler = str "gccgo" ∧
                (lookupTag x (str "gc") = (true, false) ∨
                 lookupTag x (str "gccgo") = (true, true)))) :
    ∃ e, MatchContext ord orig filename src = .error ⟨filename, true, e⟩ ∧
      (e = .compilerMismatchGc ∨ e = .compilerMismatchGccGo ∨
       e = .compilerNegatedGc ∨ e = .compilerNegatedGccGo) := by
  have htags : tags = insertAllTags fr.tags (exprTags x) := shouldBuild_tags_eq hpc hsb
  have hgate : str "gc" ∈ tags ∨ str "gccgo" ∈ tags := by
    rcases hconf with ⟨_, h | h⟩ | ⟨_, h | h⟩
    · exact Or.inr (htags ▸ mem_insertAllTags_of_mem_right (lookupTag_found_mem_exprTags h))
    · exact Or.inl (htags ▸ mem_insertAllTags_of_mem_right (lookupTag_found_mem_exprTags h))
    · exact Or.inl (htags ▸ mem_insertAllTags_of_mem_right (lookupTag_found_mem_exprTags h))
    · exact Or.inr (htags ▸ mem_insertAllTags_of_mem_right (lookupTag_found_mem_exprTags h))
  have hcc : ∃ e, checkCompiler c1 x = some e ∧
      (e = .compilerMismatchGc ∨ e = .compilerMismatchGccGo ∨
       e = .compilerNegatedGc ∨ e = .compilerNegatedGccGo) := by
    unfold checkCompiler
    rcases hconf with ⟨hcomp, h | h⟩ | ⟨hcomp, h | h⟩
    · rw [if_pos hcomp, h]
      exact ⟨_, rfl, by simp⟩
    · rw [if_pos hcomp]
      rcases hg : lookupTag x (str "gccgo") with ⟨found, neg⟩
      cases found <;> cases neg <;> simp_all
    · have hne' : c1.Compiler ≠ str "gc" := by
        rw [hcomp]
        decide
      rw [if_neg hne', if_pos hcomp, h]
      exact ⟨_, rfl, by simp⟩
    · have hne' : c1.Compiler ≠ str "gc" := by
        rw [hcomp]
        decide
      rw [if_neg hne', if_pos hcomp]
      rcases hg : lookupTag x (str "gc") with ⟨found, neg⟩
      cases found <;> cases neg <;> simp_all
  rcases hcc with ⟨e, hcc, hclass⟩
  refine ⟨e, ?_, hclass⟩
  simp only [MatchContext]
  rw [hfr, hsb, hpc]
  dsimp only
  rw [if_neg hne]
  simp only [matchResolve]
  rw [hc1, hev]
  simp [htg, hrel, hgate, hcc]

/-- Claim C5 witness: a file requiring gccgo under the gc compiler fails
permanently with the compiler-mismatch error, through the compiler-check
theorem. -/
theorem matchContext_compiler_check_permanent_witness :
    ∃ e, MatchContext .idOrd startLinuxAmd64 (str "main.go")
        (str "//go:build gccgo\n\npackage p\n")
      = .error ⟨str "main.go", true, e⟩ ∧
      (e = .compilerMismatchGc ∨ e = .compilerMismatchGccGo ∨
       e = .compilerNegatedGc ∨ e = .compilerNegatedGccGo) :=
  matchContext_compiler_check_permanent .idOrd startLinuxAmd64 (str "main.go")
    (str "//go:build gccgo\n\npackage p\n")
    (filenamePhase .idOrd (applyDefaults startLinuxAmd64) (baseName (str "main.go")))
    [str "gccgo"] (.tag (str "gccgo"))
    (goexpPhase .idOrd (filenamePhase .idOrd (applyDefaults startLinuxAmd64)
      (baseName (str "main.go"))).ctxt [str "gccgo"] (.tag (str "gccgo")))
    rfl (by decide) (by decide) (by decide) rfl (by decide) (by decide) (by decide)
    (Or.inl ⟨by decide, Or.inl (by decide)⟩)

/-! ## First-occurrence semantics of lookupTag (claim C9) -/

/-- All tag occurrences of an expression in left-to-right order, each paired
with its negation parity (nested Not nodes toggle the parity). -/
def occurrences : ConstraintExpr → List (Str × Bool)
  | .tag t => [(t, false)]
  | .not x => (occurrences x).map (fun p => (p.1, !p.2))
  | .and x y => occurrences x ++ occurrences y
  | .or x y => occurrences x ++ occurrences y

/-- The parity of the leftmost occurrence of a tag, if the tag occurs. -/
def firstOccurrence (x : ConstraintExpr) (tag : Str) : Option Bool :=
  ((occurrences x).find? (fun p => decide (p.1 = tag))).map Prod.snd

theorem find?_append_eq {α : Type} (p : α → Bool) (l₁ l₂ : List α) :
    (l₁ ++ l₂).find? p =
      match l₁.find? p with
      | some a => some a
      | none => l₂.find? p := by
  induction l₁ with
  | nil => simp
  | cons a l ih =>
    by_cases h : p a
    · simp [List.find?_cons, h]
    · simp only [List.cons_append, List.find?_cons, h]
      exact ih

theorem find?_map_eq {α β : Type} (f : α → β) (p : β → Bool) (l : List α) :
    (l.map f).find? p = (l.find? (fun a => p (f a))).map f := by
  induction l with
  | nil => simp
  | cons a l ih =>
    by_cases h : p (f a)
    · simp [List.find?_cons, h]
    · simp only [List.map_cons, List.find?_cons, h]
      exact ih

/-- The claim C9 theorem: lookupTag reports exactly the leftmost occurrence
of the tag in a left-to-right traversal of the expression tree — found
together with the parity accumulated through the enclosing Not nodes — and
any later occurrence, even of opposite polarity, does not affect the result.
Every resolution step that asks for a tag's required polarity does so through
lookupTag and therefore acts on the leftmost occurrence alone. -/
theorem lookupTag_eq_first_occurrence (x : ConstraintExpr) (tag : Str) :
    lookupTag x tag =
      match firstOccurrence x tag with
      | none => (false, false)
      | some neg => (true, neg) := by
  induction x with
  | tag t =>
    by_cases h : t = tag
    · subst h
      simp [lookupTag, firstOccurrence, occurrences, List.find?_cons]
    · simp [lookupTag, firstOccurrence, occurrences, List.find?_cons, h]
  | not x ih =>
    unfold lookupTag firstOccurrence occurrences
    rw [find?_map_eq]
    unfold firstOccurrence at ih
    rcases hf : (occurrences x).find? (fun p => decide (p.1 = tag)) with _ | ⟨t, neg⟩
    · rw [hf] at ih
      simp only [Option.map_none'] at ih
      simp only [ih, hf, Option.map_none']
    · rw [hf] at ih
      simp only [Option.map_some'] at ih
      simp only [ih, hf, Option.map_some']
  | and x y ihx ihy =>
    unfold lookupTag firstOccurrence occurrences
    rw [find?_append_eq]
    unfold firstOccurrence at ihx ihy
    rcases hf : (occurrences x).find? (fun p => decide (p.1 = tag)) with _ | ⟨t, neg⟩
    · rw [hf] at ihx
      simp only [Option.map_none'] at ihx
      simp only [ihx, hf]
      exact ihy
    · rw [hf] at ihx
      simp only [Option.map_some'] at ihx
      simp only [ihx, hf, Option.map_some']
  | or x y ihx ihy =>
    unfold lookupTag firstOccurrence occurrences
    rw [find?_append_eq]
    unfold firstOccurrence at ihx ihy
    rcases hf : (occurrences x).find? (fun p => decide (p.1 = tag)) with _ | ⟨t, neg⟩
    · rw [hf] at ihx
      simp only [Option.map_none'] at ihx
      simp only [ihx, hf]
      exact ihy
    · rw [hf] at ihx
      simp only [Option.map_some'] at ihx
      simp only [ihx, hf, Option.map_some']

/-! ## The filename suffix rule (claim C6) -/

/-- Appending the always-unknown empty component after the reversed
components does not change the accept decision. -/
theorem suffixMatch_append_nil (c : Context) (tags : List Str) (rev : List Str) :
    (suffixMatch c tags (rev ++ [[]])).1 = (suffixMatch c tags rev).1 := by
  rcases rev with _ | ⟨last, _ | ⟨os, rest⟩⟩
  · rfl
  · have h : knownOS ([] : Str) = false := by decide
    simp [suffixMatch, h]
  · rfl

/-- The leading empty component contributed by keeping the first underscore
does not change the accept decision: the component list with the empty head
decides like the list without it. -/
theorem suffixAccept_cons_nil (c : Context) (tags : List Str) (l : List Str) :
    (suffixAccept c tags ([] :: l)).1 = (suffixAccept c tags l).1 := by
  rcases l with _ | ⟨a, l₂⟩
  · rfl
  · unfold suffixAccept
    rw [List.getLast?_cons_cons]
    by_cases hlast : (a :: l₂).getLast? = some (str "test")
    · rw [if_pos hlast, if_pos hlast, List.dropLast_cons₂]
      dsimp only
      rw [List.reverse_cons]
      exact suffixMatch_append_nil c tags _
    · rw [if_neg hlast, if_neg hlast]
      dsimp only
      rw [List.reverse_cons]
      exact suffixMatch_append_nil c tags _

/-- The claim C6 theorem: goodOSArchFile decides exactly as the
specification's filename suffix rule states it, for every configuration,
file name and consulted set.  (The source keeps the first underscore when it
cuts the name, contributing a leading empty component to the split; the rule
as worded discards it, which never changes the decision.) -/
theorem goodOSArchFile_eq_spec (c : Context) (name : Str) (tags : List Str) :
    (goodOSArchFile c name tags).1 = specGoodOSArchFile c name := by
  unfold goodOSArchFile specGoodOSArchFile
  dsimp only
  rcases hc : cutChar '_' (cutBefore '.' name) with _ | ⟨pre, rest⟩
  · rfl
  · dsimp only
    rw [suffixAccept_cons_nil]
    unfold suffixAccept
    dsimp only
    rcases hm : (if (splitOnChar '_' rest).getLast? = some (str "test")
        then (splitOnChar '_' rest).dropLast else splitOnChar '_' rest).reverse with
      _ | ⟨last, _ | ⟨os, rest2⟩⟩
    · rfl
    · simp only [suffixMatch, suffixSingle]
      split <;> rfl
    · simp only [suffixMatch, suffixSingle]
      split
      · exact Bool.and_comm _ _
      · split <;> rfl

/-! ## The legacy directive evaluator (shouldBuild and match of buildutil.go) -/

/-- Lengths of the two parts of a cut are smaller than the whole. -/
theorem cutChar_some_lengths {ch : Char} {s l r : Str}
    (h : cutChar ch s = some (l, r)) : l.length < s.length ∧ r.length < s.length := by
  induction s generalizing l r with
  | nil => simp [cutChar] at h
  | cons c cs ih =>
    unfold cutChar at h
    by_cases hc : c = ch
    · rw [if_pos hc] at h
      cases h
      simp
    · rw [if_neg hc] at h
      rcases hcut : cutChar ch cs with _ | ⟨a, b⟩ <;> rw [hcut] at h
      · simp at h
      · simp only [Option.map_some'] at h
        cases h
        have := ih hcut
        constructor
        · simpa using Nat.succ_lt_succ this.1
        · exact Nat.lt_succ_of_lt this.2

namespace Legacy

/-- Upsert into the recording map (`allTags[name] = v`), keyed by tag name. -/
def putTag (m : List (Str × Bool)) (k : Str) (v : Bool) : List (Str × Bool) :=
  if (m.lookup k).isSome then
    m.map (fun kv => if kv.1 = k then (k, v) else kv)
  else m ++ [(k, v)]

/-- The legacy token matcher (the `match` function of buildutil.go): empty
names never match (but are recorded), a comma-separated list is the
conjunction of its parts, a !! token is always rejected, a leading ! negates
(requiring something after it), and a plain name — recorded with its
polarity — must be well-formed and then equal the configuration's GOOS,
GOARCH or compiler, be the enabled cgo marker, profit from the android/linux
exception, or be listed in BuildTags or ReleaseTags. -/
def matchName (c : Context) (name : Str) (allTags : List (Str × Bool))
    (negated : Bool) : Bool × List (Str × Bool) :=
  if name = [] then (false, putTag allTags [] true)
  else
    match hcut : cutChar ',' name with
    | some p =>
      let r1 := matchName c p.1 allTags false
      let r2 := matchName c p.2 r1.2 false
      (r1.1 && r2.1, r2.2)
    | none =>
      if startsWith (str "!!") name then (false, allTags)
      else if startsWith (str "!") name then
        if hlen : 1 < name.length then
          let r := matchName c (name.drop 1) allTags true
          (!r.1, r.2)
        else (false, allTags)
      else
        let allTags := putTag allTags name (!negated)
        if ¬ (name.all isTagChar) then (false, allTags)
        else if c.CgoEnabled ∧ name = str "cgo" then (true, allTags)
        else if name = c.GOOS ∨ name = c.GOARCH ∨ name = c.Compiler then (true, allTags)
        else if c.GOOS = str "android" ∧ name = str "linux" then (true, allTags)
        else (decide (name ∈ c.BuildTags) || decide (name ∈ c.ReleaseTags), allTags)
termination_by name.length
decreasing_by
  · exact (cutChar_some_lengths hcut).1
  · exact (cutChar_some_lengths hcut).2
  · simp only [List.length_drop]
    omega

/-- The legacy shouldBuild of buildutil.go: within the leading run of comment
and blank lines, every `// +build` line must list at least one token matching
the configuration (each token of every such line is run through the matcher,
so all of them are recorded). -/
def shouldBuild (c : Context) (content : Str) (allTags : List (Str × Bool)) :
    Bool × List (Str × Bool) :=
  (leadingRun (goLines content)).foldl
    (fun acc line =>
      match plusBuildToks line with
      | none => acc
      | some toks =>
        let r := toks.foldl
          (fun (p : Bool × List (Str × Bool)) tok =>
            let m := matchName c tok p.2 false
            (p.1 || m.1, m.2))
          (false, acc.2)
        (acc.1 && r.1, r.2))
    (true, allTags)

end Legacy

/-- A plain (comma-free, unnegated, non-empty) legacy name matches when it is
well-formed and satisfied by the configuration: this is the base case of the
claim's token semantics. -/
def plainNameMatch (c : Context) (name : Str) : Bool :=
  if name = [] then false
  else if ¬ (name.all isTagChar) then false
  else if c.CgoEnabled ∧ name = str "cgo" then true
  else if name = c.GOOS ∨ name = c.GOARCH ∨ name = c.Compiler then true
  else if c.GOOS = str "android" ∧ name = str "linux" then true
  else decide (name ∈ c.BuildTags) || decide (name ∈ c.ReleaseTags)

/-- One comma-free part of a legacy token: a part beginning with !! never
matches, a part prefixed with ! matches iff the identifier after it does not
match, otherwise the part must match plainly. -/
def specLegacyPart (c : Context) (p : Str) : Bool :=
  if startsWith (str "!!") p then false
  else if startsWith (str "!") p then
    decide (1 < p.length) && !(plainNameMatch c (p.drop 1))
  else plainNameMatch c p

/-- The claim's legacy token semantics: a comma-separated token matches iff
all its comma-separated parts match. -/
def specLegacyTokMatch (c : Context) (tok : Str) : Bool :=
  (splitOnChar ',' tok).all (specLegacyPart c)

/-! ### Equivalence of the legacy matcher with the claim's token semantics -/

theorem cutChar_eq_none_iff {ch : Char} {s : Str} : cutChar ch s = none ↔ ch ∉ s := by
  induction s with
  | nil => simp [cutChar]
  | cons c cs ih =>
    unfold cutChar
    by_cases hc : c = ch
    · subst hc
      simp
    · rw [if_neg hc]
      simp only [List.mem_cons, not_or]
      constructor
      · intro h
        have hcs : cutChar ch cs = none := by
          rcases hx : cutChar ch cs with _ | p
          · rfl
          · rw [hx] at h
            simp at h
        exact ⟨fun he => hc he.symm, ih.mp hcs⟩
      · rintro ⟨-, hmem⟩
        rw [ih.mpr hmem]
        rfl

theorem splitOnChar_cons (ch c : Char) (cs : Str) :
    splitOnChar ch (c :: cs) =
      if c = ch then [] :: splitOnChar ch cs
      else
        match splitOnChar ch cs with
        | [] => [[c]]
        | p :: ps => (c :: p) :: ps := rfl

theorem splitOnChar_of_cut_none {ch : Char} {s : Str} (h : cutChar ch s = none) :
    splitOnChar ch s = [s] := by
  induction s with
  | nil => rfl
  | cons c cs ih =>
    unfold cutChar at h
    by_cases hc : c = ch
    · rw [if_pos hc] at h
      cases h
    · rw [if_neg hc] at h
      have hcs : cutChar ch cs = none := by
        rcases hx : cutChar ch cs with _ | p
        · rfl
        · rw [hx] at h
          simp at h
      rw [splitOnChar_cons, if_neg hc, ih hcs]

theorem splitOnChar_of_cut_some {ch : Char} {s l r : Str}
    (h : cutChar ch s = some (l, r)) :
    splitOnChar ch s = l :: splitOnChar ch r := by
  induction s generalizing l r with
  | nil => simp [cutChar] at h
  | cons c cs ih =>
    unfold cutChar at h
    by_cases hc : c = ch
    · rw [if_pos hc] at h
      cases h
      rw [splitOnChar_cons, if_pos hc]
    · rw [if_neg hc] at h
      rcases hx : cutChar ch cs with _ | ⟨a, b⟩ <;> rw [hx] at h
      · simp at h
      · simp only [Option.map_some'] at h
        cases h
        rw [splitOnChar_cons, if_neg hc, ih hx]

theorem cutChar_fst_not_mem {ch : Char} {s l r : Str}
    (h : cutChar ch s = some (l, r)) : ch ∉ l := by
  induction s generalizing l r with
  | nil => simp [cutChar] at h
  | cons c cs ih =>
    unfold cutChar at h
    by_cases hc : c = ch
    · rw [if_pos hc] at h
      cases h
      simp
    · rw [if_neg hc] at h
      rcases hx : cutChar ch cs with _ | ⟨a, b⟩ <;> rw [hx] at h
      · simp at h
      · simp only [Option.map_some'] at h
        cases h
        simp only [List.mem_cons, not_or]
        exact ⟨fun hx' => hc hx'.symm, ih hx⟩

theorem specLegacyTokMatch_of_cut_none {c : Context} {s : Str}
    (h : cutChar ',' s = none) : specLegacyTokMatch c s = specLegacyPart c s := by
  unfold specLegacyTokMatch
  rw [splitOnChar_of_cut_none h]
  simp

theorem specLegacyTokMatch_of_cut_some {c : Context} {s l r : Str}
    (h : cutChar ',' s = some (l, r)) :
    specLegacyTokMatch c s = (specLegacyPart c l && specLegacyTokMatch c r) := by
  unfold specLegacyTokMatch
  rw [splitOnChar_of_cut_some h]
  simp

theorem startsWith_bang_eq (c : Char) (t : Str) :
    startsWith (str "!") (c :: t) = decide (c = '!') := by
  show decide ([c] = ['!']) = decide (c = '!')
  rw [decide_eq_decide]
  simp

theorem startsWith_bangbang_eq (c d : Char) (t : Str) :
    startsWith (str "!!") (c :: d :: t) = (decide (c = '!') && decide (d = '!')) := by
  show decide ([c, d] = ['!', '!']) = _
  by_cases hc : c = '!' <;> by_cases hd : d = '!' <;> simp [hc, hd]

theorem startsWith_bangbang_single (c : Char) :
    startsWith (str "!!") [c] = false := by
  show decide ([c] = ['!', '!']) = false
  simp

/-- On a non-empty, comma-free, unnegated name the legacy matcher decides
like the plain-name check (the recording and the negation flag do not affect
the decision). -/
theorem matchName_fst_plain (c : Context) {name : Str} (hnil : name ≠ [])
    (hcut : cutChar ',' name = none) (hb : startsWith (str "!") name = false)
    (tags : List (Str × Bool)) (neg : Bool) :
    (Legacy.matchName c name tags neg).1 = plainNameMatch c name := by
  have hbb : startsWith (str "!!") name = false := by
    rcases name with _ | ⟨c0, _ | ⟨d, t⟩⟩
    · exact absurd rfl hnil
    · exact startsWith_bangbang_single c0
    · rw [startsWith_bangbang_eq]
      rw [startsWith_bang_eq] at hb
      rw [hb, Bool.false_and]
  unfold Legacy.matchName
  rw [if_neg hnil]
  split
  · next p heq => rw [hcut] at heq; cases heq
  · next heq =>
    rw [hbb, hb]
    simp only [Bool.false_eq_true, if_false]
    unfold plainNameMatch
    rw [if_neg hnil]
    split_ifs <;> rfl

/-- The legacy matcher decides every token exactly as the claim's token
semantics state. -/
theorem matchName_fst_eq_spec (c : Context) :
    ∀ (n : Nat) (name : Str), name.length ≤ n →
      ∀ (tags : List (Str × Bool)) (neg : Bool),
        (Legacy.matchName c name tags neg).1 = specLegacyTokMatch c name := by
  intro n
  induction n with
  | zero =>
    intro name hlen tags neg
    have hname : name = [] := List.length_eq_zero.mp (Nat.le_zero.mp hlen)
    subst hname
    unfold Legacy.matchName
    rfl
  | succ n ih =>
    intro name hlen tags neg
    by_cases hnil : name = []
    · subst hnil
      unfold Legacy.matchName
      rfl
    · unfold Legacy.matchName
      rw [if_neg hnil]
      split
      · next p heq =>
        dsimp only
        have hl := cutChar_some_lengths heq
        have h1 := ih p.1 (by omega) tags false
        have h2 := ih p.2 (by omega)
          (Legacy.matchName c p.1 tags false).2 false
        rw [h1, h2, specLegacyTokMatch_of_cut_some heq,
          specLegacyTokMatch_of_cut_none
            (cutChar_eq_none_iff.mpr (cutChar_fst_not_mem heq))]
      · next heq =>
        rw [specLegacyTokMatch_of_cut_none heq]
        unfold specLegacyPart
        by_cases hbb : startsWith (str "!!") name = true
        · rw [hbb]
          simp
        · rw [Bool.not_eq_true] at hbb
          rw [hbb]
          simp only [Bool.false_eq_true, if_false]
          by_cases hb : startsWith (str "!") name = true
          · rw [hb]
            simp only [if_true]
            rcases name with _ | ⟨c0, rest⟩
            · exact absurd rfl hnil
            · rw [startsWith_bang_eq] at hb
              have hc0 : c0 = '!' := of_decide_eq_true hb
              subst hc0
              rcases rest with _ | ⟨d, t⟩
              · rw [dif_neg (by simp)]
                simp
              · have hlen1 : 1 < ('!' :: d :: t : Str).length := by
                  simp
                rw [dif_pos hlen1]
                dsimp only
                rw [decide_eq_true hlen1, Bool.true_and]
                simp only [List.drop_succ_cons, List.drop_zero]
                have hd : startsWith (str "!") (d :: t) = false := by
                  rw [startsWith_bangbang_eq] at hbb
                  rw [startsWith_bang_eq]
                  simpa using hbb
                have hcutr : cutChar ',' (d :: t) = none := by
                  rw [cutChar_eq_none_iff]
                  have := cutChar_eq_none_iff.mp heq
                  simp only [List.mem_cons, not_or] at this
                  simp [this.2]
                rw [matchName_fst_plain c (by simp) hcutr hd tags true]
          · rw [Bool.not_eq_true] at hb
            rw [hb]
            simp only [Bool.false_eq_true, if_false]
            unfold plainNameMatch
            rw [if_neg hnil]
            split_ifs <;> rfl

theorem toksFold_any (c : Context) (toks : List Str) :
    ∀ (b : Bool) (tags : List (Str × Bool)),
      (toks.foldl (fun p tok =>
          let m := Legacy.matchName c tok p.2 false
          (p.1 || m.1, m.2)) (b, tags)).1
        = (b || toks.any (specLegacyTokMatch c)) := by
  induction toks with
  | nil =>
    intro b tags
    simp
  | cons tok toks ih =>
    intro b tags
    simp only [List.foldl_cons, List.any_cons]
    rw [ih]
    rw [matchName_fst_eq_spec c tok.length tok le_rfl tags false]
    rw [Bool.or_assoc]

theorem linesFold_all (c : Context) (lines : List Str) :
    ∀ (b : Bool) (tags : List (Str × Bool)),
      (lines.foldl (fun acc line =>
          match plusBuildToks line with
          | none => acc
          | some toks =>
            let r := toks.foldl
              (fun (p : Bool × List (Str × Bool)) tok =>
                let m := Legacy.matchName c tok p.2 false
                (p.1 || m.1, m.2))
              (false, acc.2)
            (acc.1 && r.1, r.2)) (b, tags)).1
        = (b && (lines.filterMap plusBuildToks).all
            (fun toks => toks.any (specLegacyTokMatch c))) := by
  induction lines with
  | nil =>
    intro b tags
    simp
  | cons line lines ih =>
    intro b tags
    simp only [List.foldl_cons, List.filterMap_cons]
    rcases h : plusBuildToks line with _ | toks
    · simp only [h]
      exact ih b tags
    · simp only [h]
      rw [toksFold_any]
      rw [ih, List.all_cons]
      rw [Bool.false_or, Bool.and_assoc]

/-- The claim C7 theorem: the legacy shouldBuild accepts file content exactly
when every `// +build` line within the leading run of comment and blank
lines (the run ending at the last blank line before the first non-comment,
non-blank line) contains at least one space-separated token that matches the
configuration, where a token matches iff all its comma-separated parts do, a
!! part never matches, a ! part matches iff the name after the marker does
not, and a file with no such lines is accepted (the conjunction over the
empty list). -/
theorem legacyShouldBuild_iff_every_line_matches
    (c : Context) (content : Str) (allTags : List (Str × Bool)) :
    (Legacy.shouldBuild c content allTags).1 =
      ((leadingRun (goLines content)).filterMap plusBuildToks).all
        (fun toks => toks.any (specLegacyTokMatch c)) := by
  unfold Legacy.shouldBuild
  rw [linesFold_all]
  rw [Bool.true_and]

/-! ## A Go slice/heap model for util.CopyContext (claims C3 and C10)

Slices are views (array id, offset, length, capacity) into a heap of
arrays; `append` with spare capacity writes in place and otherwise
reallocates, and util's StringsRemoveAll filters in place — exactly Go's
semantics for the operations the matcher performs on the tag sets. -/

/-- A Go backing array of strings. -/
abbrev Arr := List Str

/-- The heap: backing arrays addressed by allocation order. -/
abbrev Heap := List Arr

/-- A Go slice header. -/
structure SliceView where
  arr : Nat
  off : Nat
  len : Nat
  cap : Nat
  deriving DecidableEq

/-- The nil slice. -/
def nilView : SliceView := ⟨0, 0, 0, 0⟩

/-- The elements a slice view denotes. -/
def readView (h : Heap) (v : SliceView) : List Str :=
  ((h.getD v.arr []).drop v.off).take v.len

/-- Write one element of one backing array. -/
def heapWrite (h : Heap) (i idx : Nat) (val : Str) : Heap :=
  h.set i ((h.getD i []).set idx val)

/-- Allocate a fresh backing array, returning its id. -/
def allocArr (h : Heap) (a : Arr) : Heap × Nat := (h ++ [a], h.length)

/-- Write a run of elements into one backing array starting at an index. -/
def writeElems (h : Heap) (i : Nat) : Nat → List Str → Heap
  | _, [] => h
  | base, val :: vals => writeElems (heapWrite h i base val) i (base + 1) vals

/-- Go's append of one element: in place into the spare capacity when there
is some, else into a freshly allocated larger array. -/
def goAppendS (h : Heap) (v : SliceView) (val : Str) : Heap × SliceView :=
  if v.len < v.cap then
    (heapWrite h v.arr (v.off + v.len) val, { v with len := v.len + 1 })
  else
    let newCap := if v.cap = 0 then 1 else 2 * v.cap
    let p := allocArr h (readView h v ++ [val] ++ List.replicate (newCap - (v.len + 1)) [])
    (p.1, ⟨p.2, 0, v.len + 1, newCap⟩)

/-- util.StringsAppend over slice views. -/
def StringsAppendS (h : Heap) (v : SliceView) (val : Str) : Heap × SliceView :=
  if val ∈ readView h v then (h, v) else goAppendS h v val

/-- util.StringsRemoveAll over slice views: the kept elements are written
back in place (`v := a[:0]` followed by appends within capacity) and the
returned header keeps the array and capacity with the shorter length. -/
def StringsRemoveAllS (h : Heap) (v : SliceView) (val : Str) : Heap × SliceView :=
  let kept := (readView h v).filter (fun s => s ≠ val)
  (writeElems h v.arr v.off kept, { v with len := kept.length })

/-- util.DuplicateStrings over slice views: nil for an empty input, else a
fresh full copy. -/
def DuplicateStringsS (h : Heap) (v : SliceView) : Heap × SliceView :=
  if v.len = 0 then (h, nilView)
  else
    let p := allocArr h (readView h v)
    (p.1, ⟨p.2, 0, v.len, v.len⟩)

/-- util.CopyContext over slice views: one backing array of total length is
allocated, the three tag sets are copied into it back to back, and each
copied slice is a full (cap = len) window of it; empty sets become nil. -/
def CopyContextS (h : Heap) (bt tt rt : SliceView) :
    Heap × SliceView × SliceView × SliceView :=
  let p := allocArr h (readView h bt ++ readView h tt ++ readView h rt)
  (p.1,
   if bt.len = 0 then nilView else ⟨p.2, 0, bt.len, bt.len⟩,
   if tt.len = 0 then nilView else ⟨p.2, bt.len, tt.len, tt.len⟩,
   if rt.len = 0 then nilView else ⟨p.2, bt.len + tt.len, rt.len, rt.len⟩)

/-- The tag-set mutations MatchContext performs on its private copy, each
naming (by index into the list of slice headers seen so far, covering the
saved-and-restored headers of the toggle loop) the header it acts on. -/
inductive TagOp where
  | append (i : Nat) (v : Str)
  | removeAll (i : Nat) (v : Str)
  | dup (i : Nat)

/-- The machine state: the heap and every slice header produced so far. -/
structure OpState where
  heap : Heap
  views : List SliceView

/-- The header an op refers to (out-of-range indices read as nil). -/
def viewAt (s : OpState) (i : Nat) : SliceView := s.views.getD i nilView

/-- Run one tag-set mutation; the resulting header is recorded. -/
def TagOp.run (s : OpState) : TagOp → OpState
  | .append i v =>
    let p := StringsAppendS s.heap (viewAt s i) v
    ⟨p.1, s.views ++ [p.2]⟩
  | .removeAll i v =>
    let p := StringsRemoveAllS s.heap (viewAt s i) v
    ⟨p.1, s.views ++ [p.2]⟩
  | .dup i =>
    let p := DuplicateStringsS s.heap (viewAt s i)
    ⟨p.1, s.views ++ [p.2]⟩

/-- Run a sequence of tag-set mutations. -/
def runOps (s : OpState) (ops : List TagOp) : OpState := ops.foldl TagOp.run s

/-- The machine state MatchContext starts from: the copied context's three
tag-set headers over the extended heap. -/
def initCopyState (h0 : Heap) (bt tt rt : SliceView) : OpState :=
  let p := CopyContextS h0 bt tt rt
  ⟨p.1, [p.2.1, p.2.2.1, p.2.2.2]⟩

/-! ### Heap helper lemmas -/

theorem getD_append_left {α : Type} (l l' : List α) (d : α) {i : Nat}
    (h : i < l.length) : (l ++ l').getD i d = l.getD i d := by
  induction l generalizing i with
  | nil => simp at h
  | cons a as ih =>
    rcases i with _ | i
    · rfl
    · simp only [List.cons_append, List.getD_cons_succ]
      exact ih (by simpa using h)

theorem getD_set_ne {α : Type} (l : List α) (i j : Nat) (x d : α) (h : i ≠ j) :
    (l.set i x).getD j d = l.getD j d := by
  induction l generalizing i j with
  | nil => rfl
  | cons a as ih =>
    rcases i with _ | i <;> rcases j with _ | j
    · exact absurd rfl h
    · rfl
    · rfl
    · simp only [List.set_cons_succ, List.getD_cons_succ]
      exact ih i j (by omega)

theorem heapWrite_length (h : Heap) (i idx : Nat) (val : Str) :
    (heapWrite h i idx val).length = h.length := by
  simp [heapWrite]

theorem heapWrite_getD_ne (h : Heap) (i idx : Nat) (val : Str) {j : Nat}
    (hne : i ≠ j) : (heapWrite h i idx val).getD j [] = h.getD j [] := by
  unfold heapWrite
  exact getD_set_ne _ _ _ _ _ hne

theorem readView_len_zero (h : Heap) {v : SliceView} (hv : v.len = 0) :
    readView h v = [] := by
  simp [readView, hv]

theorem readView_extend (h : Heap) (a : Arr) {v : SliceView}
    (hv : v.arr < h.length ∨ v.len = 0) : readView (h ++ [a]) v = readView h v := by
  rcases hv with hv | hv
  · unfold readView
    rw [getD_append_left _ _ _ hv]
  · rw [readView_len_zero _ hv, readView_len_zero _ hv]

theorem readView_write_ne (h : Heap) (i idx : Nat) (val : Str) {v : SliceView}
    (hne : i ≠ v.arr) : readView (heapWrite h i idx val) v = readView h v := by
  unfold readView
  rw [heapWrite_getD_ne _ _ _ _ hne]

theorem writeElems_getD_ne (h : Heap) (i : Nat) {j : Nat} (hne : i ≠ j) :
    ∀ (base : Nat) (vals : List Str),
      (writeElems h i base vals).getD j [] = h.getD j [] := by
  intro base vals
  induction vals generalizing h base with
  | nil => rfl
  | cons val vals ih =>
    unfold writeElems
    rw [ih, heapWrite_getD_ne _ _ _ _ hne]

theorem writeElems_length (h : Heap) (i : Nat) :
    ∀ (base : Nat) (vals : List Str),
      (writeElems h i base vals).length = h.length := by
  intro base vals
  induction vals generalizing h base with
  | nil => rfl
  | cons val vals ih =>
    unfold writeElems
    rw [ih, heapWrite_length]

/-! ### The copy is self-contained and never touches the caller's arrays -/

/-- States whose heap extends the original heap without modifying it and
whose recorded slice headers are all nil-like or point into the fresh
region. -/
def GoodState (h0 : Heap) (s : OpState) : Prop :=
  h0.length ≤ s.heap.length ∧
  (∀ i, i < h0.length → s.heap.getD i [] = h0.getD i []) ∧
  (∀ v ∈ s.views, (v.cap = 0 ∧ v.len = 0) ∨ h0.length ≤ v.arr)

theorem viewAt_cases {h0 : Heap} {s : OpState}
    (hs : ∀ v ∈ s.views, (v.cap = 0 ∧ v.len = 0) ∨ h0.length ≤ v.arr) (i : Nat) :
    ((viewAt s i).cap = 0 ∧ (viewAt s i).len = 0) ∨ h0.length ≤ (viewAt s i).arr := by
  unfold viewAt
  by_cases hi : i < s.views.length
  · rw [List.getD_eq_getElem _ _ hi]
    exact hs _ (List.getElem_mem hi)
  · rw [List.getD_eq_default _ _ (by omega)]
    exact Or.inl ⟨rfl, rfl⟩

theorem run_preserves_good {h0 : Heap} {s : OpState} (hs : GoodState h0 s)
    (op : TagOp) : GoodState h0 (TagOp.run s op) := by
  obtain ⟨hlen, hpre, hviews⟩ := hs
  cases op with
  | append i v =>
    have hw := viewAt_cases hviews i
    unfold TagOp.run StringsAppendS
    dsimp only
    by_cases hmem : v ∈ readView s.heap (viewAt s i)
    · rw [if_pos hmem]
      refine ⟨hlen, hpre, ?_⟩
      intro u hu
      rcases List.mem_append.mp hu with hu | hu
      · exact hviews u hu
      · rw [List.mem_singleton.mp hu]
        exact hw
    · rw [if_neg hmem]
      unfold goAppendS
      by_cases hcap : (viewAt s i).len < (viewAt s i).cap
      · rw [if_pos hcap]
        have harr : h0.length ≤ (viewAt s i).arr := by
          rcases hw with ⟨hc, _⟩ | h
          · omega
          · exact h
        refine ⟨by rw [heapWrite_length]; exact hlen, ?_, ?_⟩
        · intro i' hi'
          rw [heapWrite_getD_ne _ _ _ _ (by omega)]
          exact hpre i' hi'
        · intro u hu
          rcases List.mem_append.mp hu with hu | hu
          · exact hviews u hu
          · rw [List.mem_singleton.mp hu]
            exact Or.inr harr
      · rw [if_neg hcap]
        dsimp only [allocArr]
        refine ⟨by simp; omega, ?_, ?_⟩
        · intro i' hi'
          rw [getD_append_left _ _ _ (by omega)]
          exact hpre i' hi'
        · intro u hu
          rcases List.mem_append.mp hu with hu | hu
          · exact hviews u hu
          · rw [List.mem_singleton.mp hu]
            exact Or.inr (by simpa using hlen)
  | removeAll i v =>
    have hw := viewAt_cases hviews i
    unfold TagOp.run StringsRemoveAllS
    dsimp only
    rcases hw with ⟨hc, hl⟩ | harr
    · have hkept : (readView s.heap (viewAt s i)).filter (fun s => s ≠ v) = [] := by
        rw [readView_len_zero _ hl]
        rfl
      rw [hkept]
      refine ⟨hlen, hpre, ?_⟩
      intro u hu
      rcases List.mem_append.mp hu with hu | hu
      · exact hviews u hu
      · rw [List.mem_singleton.mp hu]
        exact Or.inl ⟨hc, by simp⟩
    · refine ⟨by rw [writeElems_length]; exact hlen, ?_, ?_⟩
      · intro i' hi'
        rw [writeElems_getD_ne _ _ (by omega)]
        exact hpre i' hi'
      · intro u hu
        rcases List.mem_append.mp hu with hu | hu
        · exact hviews u hu
        · rw [List.mem_singleton.mp hu]
          exact Or.inr harr
  | dup i =>
    unfold TagOp.run DuplicateStringsS
    dsimp only
    by_cases hdl : (viewAt s i).len = 0
    · rw [if_pos hdl]
      refine ⟨hlen, hpre, ?_⟩
      intro u hu
      rcases List.mem_append.mp hu with hu | hu
      · exact hviews u hu
      · rw [List.mem_singleton.mp hu]
        exact Or.inl ⟨rfl, rfl⟩
    · rw [if_neg hdl]
      dsimp only [allocArr]
      refine ⟨by simp; omega, ?_, ?_⟩
      · intro i' hi'
        rw [getD_append_left _ _ _ (by omega)]
        exact hpre i' hi'
      · intro u hu
        rcases List.mem_append.mp hu with hu | hu
        · exact hviews u hu
        · rw [List.mem_singleton.mp hu]
          exact Or.inr (by simpa using hlen)

theorem runOps_preserves_good {h0 : Heap} {s : OpState} (hs : GoodState h0 s)
    (ops : List TagOp) : GoodState h0 (runOps s ops) := by
  induction ops generalizing s with
  | nil => exact hs
  | cons op ops ih => exact ih (run_preserves_good hs op)

theorem initCopyState_good (h0 : Heap) (bt tt rt : SliceView) :
    GoodState h0 (initCopyState h0 bt tt rt) := by
  unfold initCopyState CopyContextS allocArr
  dsimp only
  refine ⟨by simp, ?_, ?_⟩
  · intro i hi
    exact getD_append_left _ _ _ hi
  · intro u hu
    simp only [List.mem_cons, List.not_mem_nil, or_false] at hu
    rcases hu with hu | hu | hu <;> rw [hu] <;> split
    · exact Or.inl ⟨rfl, rfl⟩
    · exact Or.inr le_rfl
    · exact Or.inl ⟨rfl, rfl⟩
    · exact Or.inr le_rfl
    · exact Or.inl ⟨rfl, rfl⟩
    · exact Or.inr le_rfl

/-- The claim C3 theorem: however MatchContext's resolution steps mutate the
tag sets of its private copy — any sequence of StringsAppend,
StringsRemoveAll and DuplicateStrings operations on any slice headers
produced after util.CopyContext, which covers every mutation the matcher
performs, including through saved-and-restored headers — every backing array
that existed before the call is left untouched, so the caller's
Configuration (whose scalar fields are copied by value and whose tag-set
slices are views into those pre-existing arrays) reads exactly as before the
call; moreover the copy's tag-set storage is the freshly allocated array,
never the caller's. -/
theorem matchContext_mutations_never_touch_caller
    (h0 : Heap) (bt tt rt : SliceView) (ops : List TagOp) :
    (∀ v : SliceView, v.arr < h0.length →
        readView (runOps (initCopyState h0 bt tt rt) ops).heap v = readView h0 v) ∧
    (∀ w ∈ (initCopyState h0 bt tt rt).views, w.len ≠ 0 → h0.length ≤ w.arr) := by
  have hg := runOps_preserves_good (initCopyState_good h0 bt tt rt) ops
  constructor
  · intro v hv
    unfold readView
    rw [hg.2.1 v.arr hv]
  · intro w hw hlen
    rcases (initCopyState_good h0 bt tt rt).2.2 w hw with ⟨_, h0len⟩ | h
    · exact absurd h0len hlen
    · exact h

/-- Claim C3 witness: a concrete one-array heap, a copy, an append and an
in-place removal later, the caller's array still reads unchanged. -/
theorem matchContext_mutations_never_touch_caller_witness :
    readView (runOps (initCopyState [[str "a"]] ⟨0, 0, 1, 1⟩ nilView nilView)
        [TagOp.append 0 (str "x"), TagOp.removeAll 3 (str "a")]).heap ⟨0, 0, 1, 1⟩
      = readView [[str "a"]] ⟨0, 0, 1, 1⟩ :=
  (matchContext_mutations_never_touch_caller [[str "a"]] ⟨0, 0, 1, 1⟩ nilView nilView
      [TagOp.append 0 (str "x"), TagOp.removeAll 3 (str "a")]).1 ⟨0, 0, 1, 1⟩
    (by decide)

/-! ### Self-containment of the copied slices (claim C10) -/

/-- Appending to a full slice (cap = len) reallocates, so any view that is
nil or points into the existing heap reads unchanged afterwards. -/
theorem appendS_full_preserves {h : Heap} {v : SliceView} (hcap : v.cap = v.len)
    {w : SliceView} (hw : w.arr < h.length ∨ w.len = 0) (val : Str) :
    readView (StringsAppendS h v val).1 w = readView h w := by
  unfold StringsAppendS
  split
  · rfl
  · unfold goAppendS
    rw [if_neg (by omega)]
    dsimp only [allocArr]
    exact readView_extend _ _ hw

/-- Writing into any array other than a view's backing array (or any write
at all, for a nil view) leaves the view's contents unchanged. -/
theorem write_preserves_view {h : Heap} {v : SliceView} (i idx : Nat) (val : Str)
    (hv : i ≠ v.arr ∨ v.len = 0) :
    readView (heapWrite h i idx val) v = readView h v := by
  rcases hv with hv | hv
  · exact readView_write_ne _ _ _ _ hv
  · rw [readView_len_zero _ hv, readView_len_zero _ hv]

/-- The branch facts of one copied slice header: capacity equals length, a
non-empty copy points at the fresh array, and it is nil or within the
extended heap. -/
theorem copyView_facts (n m : Nat) (L : Nat) :
    ∀ V : SliceView, V = (if L = 0 then nilView else ⟨n, m, L, L⟩) →
      V.cap = V.len ∧ (V.len ≠ 0 → V.arr = n) ∧ (V.arr < n + 1 ∨ V.len = 0) := by
  intro V hV
  by_cases hL : L = 0
  · rw [hV, if_pos hL]
    exact ⟨rfl, fun h => absurd rfl h, Or.inr rfl⟩
  · rw [hV, if_neg hL]
    exact ⟨rfl, fun _ => rfl, Or.inl (by show n < n + 1; omega)⟩

/-- The claim C10 theorem: util.CopyContext backs its three copied tag-set
slices with one freshly allocated array (each non-empty copy points at the
new array, beyond every pre-existing one), each copy's capacity equals its
length, appending any element to any one of the three copies therefore
reallocates and never overwrites the contents of the other two, and
mutating any element of any array of the original heap never changes what
the copies read. -/
theorem copyContext_self_contained (h0 : Heap) (bt tt rt : SliceView) :
    ((CopyContextS h0 bt tt rt).2.1.len ≠ 0 →
        (CopyContextS h0 bt tt rt).2.1.arr = h0.length) ∧
    ((CopyContextS h0 bt tt rt).2.2.1.len ≠ 0 →
        (CopyContextS h0 bt tt rt).2.2.1.arr = h0.length) ∧
    ((CopyContextS h0 bt tt rt).2.2.2.len ≠ 0 →
        (CopyContextS h0 bt tt rt).2.2.2.arr = h0.length) ∧
    (CopyContextS h0 bt tt rt).2.1.cap = (CopyContextS h0 bt tt rt).2.1.len ∧
    (CopyContextS h0 bt tt rt).2.2.1.cap = (CopyContextS h0 bt tt rt).2.2.1.len ∧
    (CopyContextS h0 bt tt rt).2.2.2.cap = (CopyContextS h0 bt tt rt).2.2.2.len ∧
    (∀ val : Str,
      readView (StringsAppendS (CopyContextS h0 bt tt rt).1
          (CopyContextS h0 bt tt rt).2.1 val).1 (CopyContextS h0 bt tt rt).2.2.1
        = readView (CopyContextS h0 bt tt rt).1 (CopyContextS h0 bt tt rt).2.2.1 ∧
      readView (StringsAppendS (CopyContextS h0 bt tt rt).1
          (CopyContextS h0 bt tt rt).2.1 val).1 (CopyContextS h0 bt tt rt).2.2.2
        = readView (CopyContextS h0 bt tt rt).1 (CopyContextS h0 bt tt rt).2.2.2 ∧
      readView (StringsAppendS (CopyContextS h0 bt tt rt).1
          (CopyContextS h0 bt tt rt).2.2.1 val).1 (CopyContextS h0 bt tt rt).2.1
        = readView (CopyContextS h0 bt tt rt).1 (CopyContextS h0 bt tt rt).2.1 ∧
      readView (StringsAppendS (CopyContextS h0 bt tt rt).1
          (CopyContextS h0 bt tt rt).2.2.1 val).1 (CopyContextS h0 bt tt rt).2.2.2
        = readView (CopyContextS h0 bt tt rt).1 (CopyContextS h0 bt tt rt).2.2.2 ∧
      readView (StringsAppendS (CopyContextS h0 bt tt rt).1
          (CopyContextS h0 bt tt rt).2.2.2 val).1 (CopyContextS h0 bt tt rt).2.1
        = readView (CopyContextS h0 bt tt rt).1 (CopyContextS h0 bt tt rt).2.1 ∧
      readView (StringsAppendS (CopyContextS h0 bt tt rt).1
          (CopyContextS h0 bt tt rt).2.2.2 val).1 (CopyContextS h0 bt tt rt).2.2.1
        = readView (CopyContextS h0 bt tt rt).1 (CopyContextS h0 bt tt rt).2.2.1) ∧
    (∀ i idx : Nat, ∀ val : Str, i < h0.length →
      readView (heapWrite (CopyContextS h0 bt tt rt).1 i idx val)
          (CopyContextS h0 bt tt rt).2.1
        = readView (CopyContextS h0 bt tt rt).1 (CopyContextS h0 bt tt rt).2.1 ∧
      readView (heapWrite (CopyContextS h0 bt tt rt).1 i idx val)
          (CopyContextS h0 bt tt rt).2.2.1
        = readView (CopyContextS h0 bt tt rt).1 (CopyContextS h0 bt tt rt).2.2.1 ∧
      readView (heapWrite (CopyContextS h0 bt tt rt).1 i idx val)
          (CopyContextS h0 bt tt rt).2.2.2
        = readView (CopyContextS h0 bt tt rt).1 (CopyContextS h0 bt tt rt).2.2.2) := by
  have hB := copyView_facts h0.length 0 bt.len (CopyContextS h0 bt tt rt).2.1 rfl
  have hT := copyView_facts h0.length bt.len tt.len (CopyContextS h0 bt tt rt).2.2.1 rfl
  have hR := copyView_facts h0.length (bt.len + tt.len) rt.len
    (CopyContextS h0 bt tt rt).2.2.2 rfl
  have hheap : (CopyContextS h0 bt tt rt).1.length = h0.length + 1 := by
    simp [CopyContextS, allocArr]
  have hin : ∀ V : SliceView, (V.arr < h0.length + 1 ∨ V.len = 0) →
      (V.arr < (CopyContextS h0 bt tt rt).1.length ∨ V.len = 0) := by
    intro V hV
    rw [hheap]
    exact hV
  refine ⟨hB.2.1, hT.2.1, hR.2.1, hB.1, hT.1, hR.1, ?_, ?_⟩
  · intro val
    exact ⟨appendS_full_preserves hB.1 (hin _ hT.2.2) val,
      appendS_full_preserves hB.1 (hin _ hR.2.2) val,
      appendS_full_preserves hT.1 (hin _ hB.2.2) val,
      appendS_full_preserves hT.1 (hin _ hR.2.2) val,
      appendS_full_preserves hR.1 (hin _ hB.2.2) val,
      appendS_full_preserves hR.1 (hin _ hT.2.2) val⟩
  · intro i idx val hi
    have hne : ∀ V : SliceView, (V.len ≠ 0 → V.arr = h0.length) →
        i ≠ V.arr ∨ V.len = 0 := by
      intro V hV
      by_cases hL : V.len = 0
      · exact Or.inr hL
      · rw [hV hL]
        exact Or.inl (by omega)
    exact ⟨write_preserves_view _ _ _ (hne _ hB.2.1),
      write_preserves_view _ _ _ (hne _ hT.2.1),
      write_preserves_view _ _ _ (hne _ hR.2.1)⟩

/-- Claim C10 witness: a concrete heap with three one-element tag sets —
after the copy, appending to the copied BuildTags leaves the copied ToolTags
and ReleaseTags reading unchanged, and writing into the caller's array
leaves the copied BuildTags unchanged. -/
theorem copyContext_self_contained_witness :
    readView (StringsAppendS
        (CopyContextS [[str "b", str "t", str "r"]] ⟨0, 0, 1, 1⟩ ⟨0, 1, 1, 1⟩ ⟨0, 2, 1, 1⟩).1
        (CopyContextS [[str "b", str "t", str "r"]] ⟨0, 0, 1, 1⟩ ⟨0, 1, 1, 1⟩ ⟨0, 2, 1, 1⟩).2.1
        (str "x")).1
      (CopyContextS [[str "b", str "t", str "r"]] ⟨0, 0, 1, 1⟩ ⟨0, 1, 1, 1⟩ ⟨0, 2, 1, 1⟩).2.2.1
      = readView
        (CopyContextS [[str "b", str "t", str "r"]] ⟨0, 0, 1, 1⟩ ⟨0, 1, 1, 1⟩ ⟨0, 2, 1, 1⟩).1
        (CopyContextS [[str "b", str "t", str "r"]] ⟨0, 0, 1, 1⟩ ⟨0, 1, 1, 1⟩ ⟨0, 2, 1, 1⟩).2.2.1 ∧
    readView (heapWrite
        (CopyContextS [[str "b", str "t", str "r"]] ⟨0, 0, 1, 1⟩ ⟨0, 1, 1, 1⟩ ⟨0, 2, 1, 1⟩).1
        0 0 (str "z"))
      (CopyContextS [[str "b", str "t", str "r"]] ⟨0, 0, 1, 1⟩ ⟨0, 1, 1, 1⟩ ⟨0, 2, 1, 1⟩).2.1
      = readView
        (CopyContextS [[str "b", str "t", str "r"]] ⟨0, 0, 1, 1⟩ ⟨0, 1, 1, 1⟩ ⟨0, 2, 1, 1⟩).1
        (CopyContextS [[str "b", str "t", str "r"]] ⟨0, 0, 1, 1⟩ ⟨0, 1, 1, 1⟩ ⟨0, 2, 1, 1⟩).2.1 :=
  ⟨((copyContext_self_contained [[str "b", str "t", str "r"]]
        ⟨0, 0, 1, 1⟩ ⟨0, 1, 1, 1⟩ ⟨0, 2, 1, 1⟩).2.2.2.2.2.2.1 (str "x")).1,
   ((copyContext_self_contained [[str "b", str "t", str "r"]]
        ⟨0, 0, 1, 1⟩ ⟨0, 1, 1, 1⟩ ⟨0, 2, 1, 1⟩).2.2.2.2.2.2.2 0 0 (str "z")
      (by decide)).1⟩

end Buildutil
